import Mathlib

/-!
Verification development for the serper-mcp server pipeline
(`src/serper_mcp_server.py`).  Python functions are shallowly embedded as
executable Lean definitions: strings are Lean `String`s (lists of Unicode
code points, matching Python's `str` length and indexing semantics), Python
dicts become association lists or total functions with explicit updates,
Python floats used only as exact decimal thresholds/weights are modelled as
rationals, and the fuel pattern replaces unbounded recursion (with fuel
chosen so that exhaustion is unreachable on the states the program builds).
-/

namespace SerperMCP

/-! ## Python string primitives -/

/-- ASCII whitespace recognised by Python's default `str.strip()`
(space, tab, newline, carriage return, vertical tab, form feed).
Python also strips some non-ASCII Unicode spaces; the pipeline's claims
only involve ASCII strings. -/
def pyIsSpace (c : Char) : Bool :=
  c = ' ' ∨ c = '\t' ∨ c = '\n' ∨ c = '\r' ∨ c = '\x0b' ∨ c = '\x0c'

/-- Python `str.strip()`: drop leading and trailing whitespace. -/
def pyStrip (s : String) : String :=
  ⟨((s.data.dropWhile pyIsSpace).reverse.dropWhile pyIsSpace).reverse⟩

/-- Python `str.lower()` restricted to ASCII letters (the model maps each
code point through `Char.toLower`; the claims involve ASCII strings). -/
def pyLower (s : String) : String :=
  ⟨s.data.map Char.toLower⟩

/-! ## `_transform_github_url_to_raw` (source lines 122-141)

The source applies `re.match` with the pattern
`https://github\.com/([^/]+)/([^/]+)/blob/([^/]+)/(.+)` and, on a match,
rebuilds `https://raw.githubusercontent.com/{owner}/{repo}/{branch}/{path}`
from the four captures; otherwise the URL is returned unchanged.

`re.match` anchors at the start only.  Each `([^/]+)` necessarily matches a
maximal nonempty run of non-`/` characters followed by its literal `/` (the
run cannot backtrack across a `/`), and `(.+)` matches the maximal nonempty
run of non-newline characters, ignoring anything from the first newline on.
The parser below implements exactly that. -/

/-- Match a literal character-list prefix, returning the remainder. -/
def dropLit : List Char → List Char → Option (List Char)
  | [], u => some u
  | _ :: _, [] => none
  | c :: p, d :: u => if d = c then dropLit p u else none

def githubLit : List Char := "https://github.com/".data

def blobLit : List Char := "/blob/".data

/-- The four captures of the GitHub-blob regex, or `none` when the regex
does not match a prefix of the URL. -/
def matchGithubBlob (u : List Char) : Option (List Char × List Char × List Char × List Char) :=
  match dropLit githubLit u with
  | none => none
  | some r0 =>
    if r0.takeWhile (· ≠ '/') = [] then none else
    match r0.dropWhile (· ≠ '/') with
    | [] => none
    | _ :: r2 =>
      if r2.takeWhile (· ≠ '/') = [] then none else
      match dropLit blobLit (r2.dropWhile (· ≠ '/')) with
      | none => none
      | some r4 =>
        if r4.takeWhile (· ≠ '/') = [] then none else
        match r4.dropWhile (· ≠ '/') with
        | [] => none
        | _ :: r6 =>
          if r6.takeWhile (· ≠ '\n') = [] then none else
          some (r0.takeWhile (· ≠ '/'), r2.takeWhile (· ≠ '/'),
                r4.takeWhile (· ≠ '/'), r6.takeWhile (· ≠ '\n'))

def rawLit : List Char := "https://raw.githubusercontent.com/".data

/-- `_transform_github_url_to_raw`. -/
def transform_github_url_to_raw (url : String) : String :=
  match matchGithubBlob url.data with
  | some (ow, rp, br, fp) =>
    ⟨rawLit ++ ow ++ '/' :: rp ++ '/' :: br ++ '/' :: fp⟩
  | none => url

/-! ### Lemmas about the URL parser -/

theorem dropLit_self_append (p r : List Char) : dropLit p (p ++ r) = some r := by
  induction p with
  | nil => rfl
  | cons c t ih => simp [dropLit, ih]

theorem dropLit_sound : ∀ {p u r : List Char}, dropLit p u = some r → u = p ++ r := by
  intro p
  induction p with
  | nil =>
    intro u r h
    simp only [dropLit, Option.some.injEq] at h
    simpa using h
  | cons c t ih =>
    intro u r h
    match u with
    | [] => exact absurd h (by simp [dropLit])
    | d :: u' =>
      simp only [dropLit] at h
      by_cases hd : d = c
      · rw [if_pos hd] at h
        rw [hd, ih h]
        rfl
      · rw [if_neg hd] at h
        exact absurd h (by simp)

theorem dropWhile_head_false {p : Char → Bool} :
    ∀ (l : List Char) (c : Char) (r : List Char), l.dropWhile p = c :: r → p c = false := by
  intro l
  induction l with
  | nil => intro c r h; exact absurd h (by simp)
  | cons a t ih =>
    intro c r h
    rw [List.dropWhile_cons] at h
    by_cases ha : p a = true
    · rw [if_pos ha] at h
      exact ih c r h
    · rw [if_neg ha] at h
      injection h with h1 h2
      rw [← h1]
      simpa using ha

/-- Splitting a segment: if `a` has no slash, `takeWhile`/`dropWhile` on
`a ++ '/' :: rest` cut exactly at the first slash. -/
theorem seg_split {a : List Char} (rest : List Char) (h : ∀ c ∈ a, c ≠ '/') :
    (a ++ '/' :: rest).takeWhile (· ≠ '/') = a ∧
    (a ++ '/' :: rest).dropWhile (· ≠ '/') = '/' :: rest := by
  induction a with
  | nil =>
    constructor
    · rw [List.nil_append, List.takeWhile_cons ((· ≠ '/') : Char → Bool) '/' rest]
      simp
    · rw [List.nil_append, List.dropWhile_cons]
      simp
  | cons c t ih =>
    have hc : c ≠ '/' := h c (by simp)
    have iht := ih (fun x hx => h x (by simp [hx]))
    constructor
    · rw [List.cons_append, List.takeWhile_cons ((· ≠ '/') : Char → Bool) c _]
      rw [if_pos (by simpa using hc)]
      exact congrArg (c :: ·) iht.1
    · rw [List.cons_append, List.dropWhile_cons]
      rw [if_pos (by simpa using hc)]
      exact iht.2

/-- The shape from the spec sentence: u is literally
`https://github.com/{owner}/{repo}/blob/{branch}/{path}` where the first
three components are nonempty and slash-free and the path is nonempty. -/
def GithubBlobShapeS (u ow rp br fp : String) : Prop :=
  u = "https://github.com/" ++ ow ++ "/" ++ rp ++ "/blob/" ++ br ++ "/" ++ fp ∧
  ow ≠ "" ∧ rp ≠ "" ∧ br ≠ "" ∧ fp ≠ "" ∧
  (∀ c ∈ ow.data, c ≠ '/') ∧ (∀ c ∈ rp.data, c ≠ '/') ∧ (∀ c ∈ br.data, c ≠ '/')

theorem data_ne_nil_of_ne_empty {s : String} (h : s ≠ "") : s.data ≠ [] := by
  intro hd
  apply h
  cases s with
  | mk d =>
    simp only at hd
    rw [hd]

/-- Key computation: on a URL of the shape, the parser succeeds and captures
the path only up to the first newline (the regex `.` does not match `\n` and
`re.match` only requires a prefix match). -/
theorem matchGithubBlob_of_shape {u ow rp br fp : String}
    (hs : GithubBlobShapeS u ow rp br fp) (c : Char) (t : List Char)
    (hfp : fp.data = c :: t) (hc : c ≠ '\n') :
    matchGithubBlob u.data =
      some (ow.data, rp.data, br.data, fp.data.takeWhile (· ≠ '\n')) := by
  obtain ⟨hu, how, hrp, hbr, -, hnow, hnrp, hnbr⟩ := hs
  have hud : u.data =
      githubLit ++ (ow.data ++ '/' ::
        (rp.data ++ '/' :: ("blob/".data ++ (br.data ++ '/' :: fp.data)))) := by
    subst hu
    simp [String.data_append, githubLit]
  have h1 := seg_split (a := ow.data)
      (rp.data ++ '/' :: ("blob/".data ++ (br.data ++ '/' :: fp.data))) hnow
  have h2 := seg_split (a := rp.data) ("blob/".data ++ (br.data ++ '/' :: fp.data)) hnrp
  have h3 := seg_split (a := br.data) fp.data hnbr
  have hblob : dropLit blobLit ('/' :: ("blob/".data ++ (br.data ++ '/' :: fp.data)))
      = some (br.data ++ '/' :: fp.data) := by
    have : ('/' :: ("blob/".data ++ (br.data ++ '/' :: fp.data)))
        = blobLit ++ (br.data ++ '/' :: fp.data) := by
      simp [blobLit]
    rw [this, dropLit_self_append]
  have hfptake : fp.data.takeWhile (· ≠ '\n') = c :: t.takeWhile (· ≠ '\n') := by
    simp [hfp, List.takeWhile, hc]
  rw [matchGithubBlob.eq_def, hud, dropLit_self_append]
  simp only [h1.1, h1.2, h2.1, h2.2, hblob, h3.1, h3.2, hfptake]
  have hown : ow.data ≠ [] := data_ne_nil_of_ne_empty how
  have hrpn : rp.data ≠ [] := data_ne_nil_of_ne_empty hrp
  have hbrn : br.data ≠ [] := data_ne_nil_of_ne_empty hbr
  simp [hown, hrpn, hbrn, ← hfptake]

/-- A URL of the shape whose path starts with a newline does not match
(the regex `.+` needs at least one non-newline character). -/
theorem matchGithubBlob_shape_newline {u ow rp br fp : String}
    (hs : GithubBlobShapeS u ow rp br fp) (t : List Char)
    (hfp : fp.data = '\n' :: t) :
    matchGithubBlob u.data = none := by
  obtain ⟨hu, how, hrp, hbr, -, hnow, hnrp, hnbr⟩ := hs
  have hud : u.data =
      githubLit ++ (ow.data ++ '/' ::
        (rp.data ++ '/' :: ("blob/".data ++ (br.data ++ '/' :: fp.data)))) := by
    subst hu
    simp [String.data_append, githubLit]
  have h1 := seg_split (a := ow.data)
      (rp.data ++ '/' :: ("blob/".data ++ (br.data ++ '/' :: fp.data))) hnow
  have h2 := seg_split (a := rp.data) ("blob/".data ++ (br.data ++ '/' :: fp.data)) hnrp
  have h3 := seg_split (a := br.data) fp.data hnbr
  have hblob : dropLit blobLit ('/' :: ("blob/".data ++ (br.data ++ '/' :: fp.data)))
      = some (br.data ++ '/' :: fp.data) := by
    have : ('/' :: ("blob/".data ++ (br.data ++ '/' :: fp.data)))
        = blobLit ++ (br.data ++ '/' :: fp.data) := by
      simp [blobLit]
    rw [this, dropLit_self_append]
  have hfptake : fp.data.takeWhile (· ≠ '\n') = [] := by
    rw [hfp, List.takeWhile_cons ((· ≠ '\n') : Char → Bool) '\n' t]
    simp
  rw [matchGithubBlob.eq_def, hud, dropLit_self_append]
  simp only [h1.1, h1.2, h2.1, h2.2, hblob, h3.1, h3.2, hfptake]
  have hown : ow.data ≠ [] := data_ne_nil_of_ne_empty how
  have hrpn : rp.data ≠ [] := data_ne_nil_of_ne_empty hrp
  have hbrn : br.data ≠ [] := data_ne_nil_of_ne_empty hbr
  simp [hown, hrpn, hbrn, hfptake]

theorem mk_ne_empty {l : List Char} (h : l ≠ []) : String.mk l ≠ "" := by
  intro he
  exact h (by simpa using congrArg String.data he)

/-- Soundness: a successful parse yields a decomposition of the URL into the
shape, whose path is the full remainder (starting with a non-newline). -/
theorem matchGithubBlob_sound {u : List Char} {ow rp br fp : List Char}
    (h : matchGithubBlob u = some (ow, rp, br, fp)) :
    ∃ pfull : List Char,
      u = githubLit ++ (ow ++ '/' :: (rp ++ '/' :: ("blob/".data ++ (br ++ '/' :: pfull)))) ∧
      ow ≠ [] ∧ rp ≠ [] ∧ br ≠ [] ∧ pfull ≠ [] ∧
      (∀ c ∈ ow, c ≠ '/') ∧ (∀ c ∈ rp, c ≠ '/') ∧ (∀ c ∈ br, c ≠ '/') ∧
      pfull.head? ≠ some '\n' ∧ fp = pfull.takeWhile (· ≠ '\n') := by
  rw [matchGithubBlob.eq_def] at h
  split at h
  · exact absurd h (by simp)
  rename_i r0 h0
  split at h
  · exact absurd h (by simp)
  rename_i how
  split at h
  · exact absurd h (by simp)
  rename_i c1 r2 h1
  split at h
  · exact absurd h (by simp)
  rename_i hrp
  split at h
  · exact absurd h (by simp)
  rename_i r4 h2
  split at h
  · exact absurd h (by simp)
  rename_i hbr
  split at h
  · exact absurd h (by simp)
  rename_i c3 r6 h3
  split at h
  · exact absurd h (by simp)
  rename_i hfp
  simp only [Option.some.injEq, Prod.mk.injEq] at h
  obtain ⟨how', hrp', hbr', hfp'⟩ := h
  have hc1 : c1 = '/' := by
    have := dropWhile_head_false (p := (· ≠ '/')) r0 c1 r2 h1
    simpa using this
  have hc3 : c3 = '/' := by
    have := dropWhile_head_false (p := (· ≠ '/')) r4 c3 r6 h3
    simpa using this
  refine ⟨r6, ?_, ?_, ?_, ?_, ?_, ?_, ?_, ?_, ?_, ?_⟩
  · have hu := dropLit_sound h0
    have hr0 : r0 = ow ++ '/' :: r2 := by
      conv_lhs => rw [← List.takeWhile_append_dropWhile ((· ≠ '/') : Char → Bool) r0]
      rw [h1, hc1, how']
    have hr2 : r2 = rp ++ '/' :: ("blob/".data ++ r4) := by
      have hdw : r2.dropWhile (· ≠ '/') = blobLit ++ r4 := dropLit_sound h2
      conv_lhs => rw [← List.takeWhile_append_dropWhile ((· ≠ '/') : Char → Bool) r2]
      rw [hdw, hrp']
      rfl
    have hr4 : r4 = br ++ '/' :: r6 := by
      conv_lhs => rw [← List.takeWhile_append_dropWhile ((· ≠ '/') : Char → Bool) r4]
      rw [h3, hc3, hbr']
    rw [hu, hr0, hr2, hr4]
  · rw [← how']; exact how
  · rw [← hrp']; exact hrp
  · rw [← hbr']; exact hbr
  · intro h6; rw [h6] at hfp; exact hfp rfl
  · intro x hx
    rw [← how'] at hx
    simpa using List.mem_takeWhile_imp hx
  · intro x hx
    rw [← hrp'] at hx
    simpa using List.mem_takeWhile_imp hx
  · intro x hx
    rw [← hbr'] at hx
    simpa using List.mem_takeWhile_imp hx
  · cases r6 with
    | nil => exact absurd rfl hfp
    | cons c6 t6 =>
      by_cases hc6 : c6 = '\n'
      · subst hc6
        rw [List.takeWhile_cons ((· ≠ '\n') : Char → Bool) '\n' t6] at hfp
        simp at hfp
      · simp [hc6]
  · exact hfp'.symm

end SerperMCP

namespace SerperMCP

/-- C9 counterexample: the URL
`https://github.com/o/r/blob/main/a\nb` is of the claimed shape (with path
`a\nb`), yet the rewrite neither produces the raw URL with that full path
nor returns the URL unchanged: the path is silently truncated at the
newline, because `.` in the source regex does not match `\n` and `re.match`
only requires a prefix match. -/
theorem github_url_rewrite_counterexample :
    GithubBlobShapeS "https://github.com/o/r/blob/main/a\nb" "o" "r" "main" "a\nb" ∧
    transform_github_url_to_raw "https://github.com/o/r/blob/main/a\nb" =
      "https://raw.githubusercontent.com/o/r/main/a" ∧
    transform_github_url_to_raw "https://github.com/o/r/blob/main/a\nb" ≠
      "https://raw.githubusercontent.com/o/r/main/a\nb" ∧
    transform_github_url_to_raw "https://github.com/o/r/blob/main/a\nb" ≠
      "https://github.com/o/r/blob/main/a\nb" := by
  refine ⟨⟨by decide, ?rest⟩, by decide, by decide, by decide⟩
  exact ⟨by decide, by decide, by decide, by decide, by decide, by decide, by decide⟩

/-- C9 (amended): the rewrite maps every URL of the shape
`https://github.com/{owner}/{repo}/blob/{branch}/{path}` whose path starts
with a non-newline character to the raw URL whose path is the original path
truncated at the first newline (hence exactly the claimed raw URL whenever
the path contains no newline); a URL of that shape whose path starts with a
newline, and every URL not of that shape, is returned unchanged. -/
theorem github_url_rewrite_amended :
    (∀ u ow rp br fp, GithubBlobShapeS u ow rp br fp → fp.data.head? ≠ some '\n' →
       transform_github_url_to_raw u =
         "https://raw.githubusercontent.com/" ++ ow ++ "/" ++ rp ++ "/" ++ br ++ "/" ++
           String.mk (fp.data.takeWhile (· ≠ '\n'))) ∧
    (∀ u ow rp br fp, GithubBlobShapeS u ow rp br fp → fp.data.head? = some '\n' →
       transform_github_url_to_raw u = u) ∧
    (∀ u, (∀ ow rp br fp, ¬ GithubBlobShapeS u ow rp br fp) →
       transform_github_url_to_raw u = u) := by
  refine ⟨?_, ?_, ?_⟩
  · intro u ow rp br fp hs hn
    obtain ⟨c, t, hfd⟩ : ∃ c t, fp.data = c :: t := by
      cases hfd : fp.data with
      | nil => exact absurd hfd (data_ne_nil_of_ne_empty hs.2.2.2.2.1)
      | cons c t => exact ⟨c, t, rfl⟩
    have hc : c ≠ '\n' := by
      intro hcn
      apply hn
      rw [hfd, hcn]
      rfl
    have hm := matchGithubBlob_of_shape hs c t hfd hc
    unfold transform_github_url_to_raw
    rw [hm]
    apply String.ext
    simp [String.data_append, rawLit]
  · intro u ow rp br fp hs hn
    obtain ⟨t, hfd⟩ : ∃ t, fp.data = '\n' :: t := by
      cases hfd : fp.data with
      | nil => exact absurd hfd (data_ne_nil_of_ne_empty hs.2.2.2.2.1)
      | cons c t =>
        rw [hfd] at hn
        simp only [List.head?, Option.some.injEq] at hn
        exact ⟨t, by rw [hn]⟩
    have hm := matchGithubBlob_shape_newline hs t hfd
    unfold transform_github_url_to_raw
    rw [hm]
  · intro u hno
    unfold transform_github_url_to_raw
    cases hm : matchGithubBlob u.data with
    | none => rfl
    | some quad =>
      obtain ⟨ow, rp, br, fp⟩ := quad
      obtain ⟨pfull, hu, hown, hrpn, hbrn, hpn, hnow, hnrp, hnbr, hph, -⟩ :=
        matchGithubBlob_sound hm
      have hshape : GithubBlobShapeS u (String.mk ow) (String.mk rp)
          (String.mk br) (String.mk pfull) := by
        refine ⟨?_, mk_ne_empty hown, mk_ne_empty hrpn, mk_ne_empty hbrn,
          mk_ne_empty hpn, hnow, hnrp, hnbr⟩
        apply String.ext
        rw [hu]
        simp [String.data_append, githubLit]
      exact absurd hshape (hno _ _ _ _)

/-- Witness for the amended C9 theorem at the spec's own example URL. -/
theorem github_url_rewrite_amended_witness :
    transform_github_url_to_raw "https://github.com/o/r/blob/main/README.md" =
      "https://raw.githubusercontent.com/" ++ "o" ++ "/" ++ "r" ++ "/" ++ "main" ++ "/" ++
        String.mk (("README.md" : String).data.takeWhile (· ≠ '\n')) :=
  github_url_rewrite_amended.1 "https://github.com/o/r/blob/main/README.md"
    "o" "r" "main" "README.md"
    ⟨by decide, by decide, by decide, by decide, by decide, by decide, by decide, by decide⟩
    (by decide)

end SerperMCP

namespace SerperMCP

/-! ## `_is_valid_entity` (source lines 673-702)

The length check is applied to the RAW string; the noise-pattern regexes are
applied to the stripped string (via `re.match`, i.e. anchored at the start
only — `^\d+\.` matches any string STARTING with digits followed by a dot);
the stopword check is applied to the lowercased, stripped string.  `\d` and
`[a-zA-Z]` are modelled as ASCII digits/letters (the claims involve ASCII
strings). -/

/-- Regex `^\d+\.` under `re.match`: a nonempty digit run followed by a dot
(anything may follow). -/
def noiseListMarker (l : List Char) : Bool :=
  decide (l.takeWhile Char.isDigit ≠ []) &&
    ((l.dropWhile Char.isDigit).head? == some '.')

/-- Regex `^\d+%$`: a nonempty digit run followed by a final percent sign. -/
def noisePercent (l : List Char) : Bool :=
  (l.reverse.head? == some '%') && decide (l.reverse.tail ≠ []) &&
    l.reverse.tail.all Char.isDigit

/-- Regex `^\d+$`: a nonempty all-digit string. -/
def noiseNumber (l : List Char) : Bool :=
  decide (l ≠ []) && l.all Char.isDigit

/-- Regex `^[a-zA-Z]$`: a single ASCII letter. -/
def noiseSingleLetter (l : List Char) : Bool :=
  match l with
  | [c] => c.isAlpha
  | _ => false

/-- The fixed stopword set of `_is_valid_entity`. -/
def stopwords : List String :=
  ["the", "and", "or", "but", "in", "on", "at", "to", "for", "of", "with",
   "by", "from", "up", "about", "into", "through", "during", "before",
   "after", "above", "below", "between", "among", "this", "that", "these",
   "those", "it", "they", "them", "their", "there", "here", "where", "when",
   "increase", "improve", "develop", "support", "related", "concept", "thing"]

/-- `_is_valid_entity`. -/
def is_valid_entity (entity_name : String) : Bool :=
  if entity_name = "" ∨ entity_name.length < 3 then false
  else if noiseListMarker (pyStrip entity_name).data ∨
          noisePercent (pyStrip entity_name).data ∨
          noiseNumber (pyStrip entity_name).data ∨
          noiseSingleLetter (pyStrip entity_name).data then false
  else if pyStrip (pyLower entity_name) ∈ stopwords then false
  else true

/-- C7 counterexample: the claim says the under-3-characters rejection is
insensitive to surrounding whitespace, but the source checks
`len(entity_name) < 3` on the raw string, so `" ab "` (raw length 4,
trimmed length 2) is accepted. -/
theorem entity_filter_counterexample :
    is_valid_entity " ab " = true ∧ (pyStrip " ab ").length < 3 := by
  constructor
  · decide
  · decide

end SerperMCP

namespace SerperMCP

/-! ### Equivalences between the noise-pattern booleans and the spec's
descriptions of the patterns -/

theorem takeWhile_split {p : Char → Bool} :
    ∀ {a : List Char} (b : List Char) (x : Char),
    (∀ c ∈ a, p c = true) → p x = false →
    (a ++ x :: b).takeWhile p = a ∧ (a ++ x :: b).dropWhile p = x :: b := by
  intro a
  induction a with
  | nil =>
    intro b x _ hx
    constructor
    · rw [List.nil_append, List.takeWhile_cons p x b, hx]
      simp
    · rw [List.nil_append, List.dropWhile_cons, hx]
      simp
  | cons c t ih =>
    intro b x h hx
    have hc : p c = true := h c (by simp)
    have iht := ih b x (fun y hy => h y (by simp [hy])) hx
    constructor
    · rw [List.cons_append, List.takeWhile_cons p c _, hc]
      simp only [if_true]
      exact congrArg (c :: ·) iht.1
    · rw [List.cons_append, List.dropWhile_cons, hc]
      simp only [if_true]
      exact iht.2

theorem noiseListMarker_iff (l : List Char) :
    noiseListMarker l = true ↔
      ∃ ds r, l = ds ++ '.' :: r ∧ ds ≠ [] ∧ ∀ c ∈ ds, c.isDigit = true := by
  constructor
  · intro h
    unfold noiseListMarker at h
    rw [Bool.and_eq_true, decide_eq_true_iff, beq_iff_eq] at h
    obtain ⟨h1, h2⟩ := h
    cases hd : l.dropWhile Char.isDigit with
    | nil => rw [hd] at h2; exact absurd h2 (by simp)
    | cons c r =>
      rw [hd] at h2
      simp only [List.head?, Option.some.injEq] at h2
      refine ⟨l.takeWhile Char.isDigit, r, ?_, h1, fun c hc => List.mem_takeWhile_imp hc⟩
      rw [← h2, ← hd, List.takeWhile_append_dropWhile]
  · rintro ⟨ds, r, rfl, hne, hdig⟩
    have hs := takeWhile_split (p := Char.isDigit) r '.' hdig (by decide)
    unfold noiseListMarker
    rw [Bool.and_eq_true, decide_eq_true_iff, beq_iff_eq]
    exact ⟨by rw [hs.1]; exact hne, by rw [hs.2]; rfl⟩

theorem noisePercent_iff (l : List Char) :
    noisePercent l = true ↔
      ∃ ds, l = ds ++ ['%'] ∧ ds ≠ [] ∧ ∀ c ∈ ds, c.isDigit = true := by
  constructor
  · intro h
    unfold noisePercent at h
    rw [Bool.and_eq_true, Bool.and_eq_true, beq_iff_eq, decide_eq_true_iff] at h
    obtain ⟨⟨h1, h2⟩, h3⟩ := h
    cases hr : l.reverse with
    | nil => rw [hr] at h1; exact absurd h1 (by simp)
    | cons c rest =>
      rw [hr] at h1 h2 h3
      simp only [List.head?, Option.some.injEq] at h1
      simp only [List.tail] at h2 h3
      refine ⟨rest.reverse, ?_, by simpa using h2, ?_⟩
      · have : l.reverse.reverse = (c :: rest).reverse := by rw [hr]
        rw [List.reverse_reverse] at this
        rw [this, h1]
        simp
      · intro x hx
        rw [List.all_eq_true] at h3
        exact h3 x (by simpa using hx)
  · rintro ⟨ds, rfl, hne, hdig⟩
    unfold noisePercent
    have hrev : (ds ++ ['%']).reverse = '%' :: ds.reverse := by simp
    rw [Bool.and_eq_true, Bool.and_eq_true, beq_iff_eq, decide_eq_true_iff, hrev]
    refine ⟨⟨rfl, by simpa using hne⟩, ?_⟩
    rw [List.all_eq_true]
    intro x hx
    exact hdig x (by simpa using hx)

theorem noiseNumber_iff (l : List Char) :
    noiseNumber l = true ↔ l ≠ [] ∧ ∀ c ∈ l, c.isDigit = true := by
  unfold noiseNumber
  rw [Bool.and_eq_true, decide_eq_true_iff, List.all_eq_true]

theorem noiseSingleLetter_iff (l : List Char) :
    noiseSingleLetter l = true ↔ ∃ c : Char, l = [c] ∧ c.isAlpha = true := by
  constructor
  · intro h
    match l, h with
    | [c], h => exact ⟨c, rfl, h⟩
  · rintro ⟨c, rfl, hc⟩
    exact hc

end SerperMCP

namespace SerperMCP

/-- C7 (amended): the entity filter rejects exactly the strings that are
empty or shorter than 3 characters BEFORE trimming, together with — on the
trimmed form — digit-run-then-dot list markers, bare percentages, pure
numbers and single ASCII letters, and — on the lowercased trimmed form —
the fixed stopword set.  The noise and stopword checks are whitespace- and
case-insensitive as claimed, but the 3-character minimum applies to the raw
string, not the trimmed one. -/
theorem entity_filter_amended :
    ∀ e : String, is_valid_entity e = false ↔
      (e.length < 3 ∨
       (∃ ds r, (pyStrip e).data = ds ++ '.' :: r ∧ ds ≠ [] ∧ ∀ c ∈ ds, c.isDigit = true) ∨
       (∃ ds, (pyStrip e).data = ds ++ ['%'] ∧ ds ≠ [] ∧ ∀ c ∈ ds, c.isDigit = true) ∨
       ((pyStrip e).data ≠ [] ∧ ∀ c ∈ (pyStrip e).data, c.isDigit = true) ∨
       (∃ c : Char, (pyStrip e).data = [c] ∧ c.isAlpha = true) ∨
       pyStrip (pyLower e) ∈ stopwords) := by
  intro e
  unfold is_valid_entity
  by_cases h1 : e = "" ∨ e.length < 3
  · rw [if_pos h1]
    have hlen : e.length < 3 := by
      rcases h1 with h | h
      · rw [h]; decide
      · exact h
    exact iff_of_true rfl (Or.inl hlen)
  · rw [if_neg h1]
    have hlen : ¬ e.length < 3 := fun h => h1 (Or.inr h)
    by_cases h2 : (noiseListMarker (pyStrip e).data ∨ noisePercent (pyStrip e).data ∨
        noiseNumber (pyStrip e).data ∨ noiseSingleLetter (pyStrip e).data)
    · rw [if_pos h2]
      refine iff_of_true rfl (Or.inr ?_)
      rcases h2 with h | h | h | h
      · exact Or.inl ((noiseListMarker_iff _).1 h)
      · exact Or.inr (Or.inl ((noisePercent_iff _).1 h))
      · exact Or.inr (Or.inr (Or.inl ((noiseNumber_iff _).1 h)))
      · exact Or.inr (Or.inr (Or.inr (Or.inl ((noiseSingleLetter_iff _).1 h))))
    · rw [if_neg h2]
      by_cases h3 : pyStrip (pyLower e) ∈ stopwords
      · rw [if_pos h3]
        exact iff_of_true rfl (Or.inr (Or.inr (Or.inr (Or.inr (Or.inr h3)))))
      · rw [if_neg h3]
        apply iff_of_false (by simp)
        rintro (h | h | h | h | h | h)
        · exact hlen h
        · exact h2 (Or.inl ((noiseListMarker_iff _).2 h))
        · exact h2 (Or.inr (Or.inl ((noisePercent_iff _).2 h)))
        · exact h2 (Or.inr (Or.inr (Or.inl ((noiseNumber_iff _).2 h))))
        · exact h2 (Or.inr (Or.inr (Or.inr ((noiseSingleLetter_iff _).2 h))))
        · exact h3 h

/-- Witness for the amended C7 theorem: the stopword "the" is rejected. -/
theorem entity_filter_amended_witness :
    is_valid_entity "the" = false :=
  (entity_filter_amended "the").2
    (Or.inr (Or.inr (Or.inr (Or.inr (Or.inr (by decide))))))

end SerperMCP

namespace SerperMCP

/-! ## Search results, URL collection and scraping
(`_perform_single_type_super_search`, `super_search`, and the collection /
scraping phases of `analyze_topic`) -/

/-- One item of an organic/news/scholar result list: only its optional
`link` field matters to the pipeline (`item.get("link")`). -/
structure RItem where
  link : Option String
deriving DecidableEq

/-- One result object for one query, as consumed by the pipeline:
`searchParameters.q` (echoed query), `relatedSearches` (a list of optional
`query` fields when present as a list, `none` when not a list), and the
`organic` / `news` / `scholar` item lists (`.get(..., [])`). -/
structure SResult where
  q : Option String
  related : Option (List (Option String))
  organic : List RItem
  news : List RItem
  scholar : List RItem
deriving DecidableEq

/-- Insert into a Python-set modelled as a duplicate-free list in insertion
order. -/
def insertIfAbsent {α : Type} [DecidableEq α] (s : List α) (x : α) : List α :=
  if x ∈ s then s else s ++ [x]

/-- URL collection of `analyze_topic` Phase 2 (source lines 819-833): scan
every category's every result's organic, news and scholar lists in order;
before each insertion check the GLOBAL cap; insert `item.get("link")` as-is
(which is `none` for an item without a link). -/
def collectUrls (agg : List (String × List (String × SResult))) (cap : Nat) :
    List (Option String) :=
  agg.foldl (fun s tr =>
    tr.2.foldl (fun s qr =>
      let s1 := qr.2.organic.foldl
        (fun s it => if s.length < cap then insertIfAbsent s it.link else s) s
      let s2 := qr.2.news.foldl
        (fun s it => if s.length < cap then insertIfAbsent s it.link else s) s1
      qr.2.scholar.foldl
        (fun s it => if s.length < cap then insertIfAbsent s it.link else s) s2) s) []

/-- `scrape_single_url` inside `analyze_topic` (source lines 841-856): a
falsy url (`None` or `""`) is skipped, a raising scrape (`.error`) is
dropped, and empty scraped content is dropped; otherwise the document
`{url, content}` is produced. -/
def scrape_single_url (fetch : String → Except Unit String) (url : Option String) :
    Option (String × String) :=
  match url with
  | none => none
  | some u =>
    if u = "" then none
    else
      match fetch u with
      | .error _ => none
      | .ok content => if content = "" then none else some (u, content)

/-- The parallel scrape fan-in: failures and `none` results are filtered
out, order of the url list is kept (results are joined by `asyncio.gather`
in task order). -/
def scrapeAll (fetch : String → Except Unit String) (urls : List (Option String)) :
    List (String × String) :=
  urls.filterMap (scrape_single_url fetch)

/-- Demonstration input for C10: one category, one query, three organic
items — the first lacking a `link` field and the other two carrying real
links. -/
def c10Agg : List (String × List (String × SResult)) :=
  [("search", [("q0",
    { q := some "q0", related := some [],
      organic := [⟨none⟩, ⟨some "u1"⟩, ⟨some "u2"⟩], news := [], scholar := [] })])]

def c10Fetch : String → Except Unit String := fun u => .ok ("content of " ++ u)

/-- All link fields appearing in an aggregated result set (observation
helper used to state that real URLs were available). -/
def allLinks (agg : List (String × List (String × SResult))) : List (Option String) :=
  agg.foldr (fun tr acc =>
    tr.2.foldr (fun qr a =>
      qr.2.organic.map RItem.link ++ qr.2.news.map RItem.link ++
        qr.2.scholar.map RItem.link ++ a) acc) []

/-- C10: an item without a `link` inserts `None` into the candidate set;
the `None` occupies one of the `max_urls_per_query` slots (here the cap 2
is reached with only one real URL collected, shutting out `u2`), and is
silently skipped at scrape time, so only 1 document is scraped although 2
real URLs were available and the cap was 2. -/
theorem none_link_occupies_url_slot :
    collectUrls c10Agg 2 = [none, some "u1"] ∧
    (collectUrls c10Agg 2).length = 2 ∧
    scrapeAll c10Fetch (collectUrls c10Agg 2) = [("u1", "content of u1")] ∧
    (scrapeAll c10Fetch (collectUrls c10Agg 2)).length = 1 ∧
    (∀ fetch : String → Except Unit String, scrape_single_url fetch none = none) ∧
    some "u1" ∈ allLinks c10Agg ∧ some "u2" ∈ allLinks c10Agg := by
  refine ⟨rfl, rfl, rfl, rfl, fun fetch => rfl, by decide, by decide⟩

end SerperMCP

namespace SerperMCP

/-! ## `_perform_single_type_super_search` (source lines 390-457)

The loop `for depth in range(max_depth + 1)` is modelled by structural
recursion on the number of remaining iterations, with the current depth
index carried along (it is compared against `max_depth` when deciding
whether to harvest related searches).  The gateway is an environment
function from the issued batch to either an error (any exception raised by
`query_serper_api`) or a list of result objects, where a `none` entry
stands for a non-dict item (skipped with a warning by the source).

Alongside the source's return value the model returns the list of batches
issued to the gateway, one per executed depth level, for stating the
temporal claims. -/

/-- Python truthiness of an optional string field. -/
def truthy : Option String → Bool
  | none => false
  | some s => s ≠ ""

/-- Dict assignment `d[k] = v` on an insertion-ordered association list:
replace in place when the key is present, append otherwise. -/
def upsertA {β : Type} : List (String × β) → String → β → List (String × β)
  | [], k, v => [(k, v)]
  | (a, b) :: t, k, v => if a = k then (k, v) :: t else (a, b) :: upsertA t k v

/-- `processed_queries.update(current_queries)` on a set modelled as a
duplicate-free list. -/
def addProcessed (processed : List String) (batch : List String) : List String :=
  batch.foldl insertIfAbsent processed

/-- Processing of one result object at one depth: store it under its echoed
query when truthy, and (when `max_related_searches > 0` and
`depth < max_depth`) append the first `max_related_searches` related-search
queries that are truthy and not yet processed. -/
def processResult (maxRelated maxDepth depth : Nat) (processed : List String)
    (st : List (String × SResult) × List String) (res : Option SResult) :
    List (String × SResult) × List String :=
  match res with
  | none => st
  | some r =>
    let acc := match r.q with
      | some q => if q ≠ "" then upsertA st.1 q r else st.1
      | none => st.1
    let tp :=
      if 0 < maxRelated ∧ depth < maxDepth then
        match r.related with
        | some rel =>
          (rel.take maxRelated).foldl (fun tp o =>
            if truthy o ∧ o.getD "" ∉ processed then tp ++ [o.getD ""] else tp) st.2
        | none => st.2
      else st.2
    (acc, tp)

/-- Loop state: accumulated results dict, queries queued for the next
depth, processed-query set. -/
structure SSState where
  allResults : List (String × SResult)
  toProcess : List String
  processed : List String
deriving DecidableEq

/-- The depth loop.  Returns the final state and the list of issued
batches. -/
def ssLoop (gw : List String → Except Unit (List (Option SResult)))
    (maxRelated maxDepth : Nat) : Nat → Nat → SSState → SSState × List (List String)
  | _, 0, st => (st, [])
  | depth, fuel + 1, st =>
    if st.toProcess = [] then (st, [])
    else
      let current := st.toProcess.filter (· ∉ st.processed)
      if current = [] then (st, [])
      else
        let processed' := addProcessed st.processed current
        match gw current with
        | .error _ => (⟨st.allResults, [], processed'⟩, [current])
        | .ok results =>
          let step := results.foldl (processResult maxRelated maxDepth depth processed')
            (st.allResults, [])
          let rec' := ssLoop gw maxRelated maxDepth (depth + 1) fuel
            ⟨step.1, step.2, processed'⟩
          (rec'.1, current :: rec'.2)

/-- `_perform_single_type_super_search`: result dict and processed-query
count, plus the issued-batch trace. -/
def perform_single_type_super_search
    (gw : List String → Except Unit (List (Option SResult)))
    (queries : List String) (maxRelated maxDepth : Nat) :
    (List (String × SResult) × Nat) × List (List String) :=
  let r := ssLoop gw maxRelated maxDepth 0 (maxDepth + 1) ⟨[], queries, []⟩
  ((r.1.allResults, r.1.processed.length), r.2)

/-- `super_search` (source lines 460-516): one independent
`_perform_single_type_super_search` run per requested search type (the
per-type gateway is `gws type`), aggregated into a dict keyed by type, with
the processed counts summed. -/
def super_search
    (gws : String → List String → Except Unit (List (Option SResult)))
    (types : List String) (queries : List String) (maxRelated maxDepth : Nat) :
    List (String × List (String × SResult)) × Nat :=
  let runs := types.map (fun t =>
    (t, perform_single_type_super_search (gws t) queries maxRelated maxDepth))
  (runs.foldl (fun acc tr => upsertA acc tr.1 tr.2.1.1) [],
   runs.foldl (fun n tr => n + tr.2.1.2) 0)

end SerperMCP

namespace SerperMCP

/-! ### Lemmas for the search expander -/

theorem mem_insertIfAbsent_iff {α : Type} [DecidableEq α] (s : List α) (x y : α) :
    y ∈ insertIfAbsent s x ↔ y ∈ s ∨ y = x := by
  unfold insertIfAbsent
  by_cases h : x ∈ s
  · rw [if_pos h]
    constructor
    · exact Or.inl
    · rintro (hy | rfl)
      · exact hy
      · exact h
  · rw [if_neg h]
    simp

theorem mem_addProcessed_left {p b : List String} {x : String} (h : x ∈ p) :
    x ∈ addProcessed p b := by
  induction b generalizing p with
  | nil => exact h
  | cons q b' ih =>
    exact ih ((mem_insertIfAbsent_iff p q x).2 (Or.inl h))

theorem mem_addProcessed_right {p b : List String} {x : String} (h : x ∈ b) :
    x ∈ addProcessed p b := by
  induction b generalizing p with
  | nil => exact absurd h (by simp)
  | cons q b' ih =>
    rcases List.mem_cons.1 h with rfl | hx
    · show x ∈ addProcessed (insertIfAbsent p x) b'
      exact mem_addProcessed_left ((mem_insertIfAbsent_iff p x x).2 (Or.inr rfl))
    · exact ih hx

theorem mem_filter_not_processed {tp pr : List String} {q : String}
    (h : q ∈ tp.filter (· ∉ pr)) : q ∉ pr := by
  have := List.mem_filter.1 h
  simpa using this.2

/-- Batches issued by the depth loop are fresh relative to the entry
processed-set, and pairwise disjoint. -/
theorem ssLoop_batches_disjoint
    (gw : List String → Except Unit (List (Option SResult))) (mr md : Nat) :
    ∀ (fuel depth : Nat) (st : SSState),
      (∀ b ∈ (ssLoop gw mr md depth fuel st).2, ∀ q ∈ b, q ∉ st.processed) ∧
      List.Pairwise (fun b1 b2 => ∀ q ∈ b1, q ∉ b2) (ssLoop gw mr md depth fuel st).2 := by
  intro fuel
  induction fuel with
  | zero =>
    intro depth st
    constructor
    · intro b hb; exact absurd hb (by simp [ssLoop])
    · simp [ssLoop]
  | succ fuel ih =>
    intro depth st
    rw [ssLoop]
    by_cases h1 : st.toProcess = []
    · rw [if_pos h1]
      exact ⟨fun b hb => absurd hb (by simp), by simp⟩
    rw [if_neg h1]
    by_cases h2 : st.toProcess.filter (· ∉ st.processed) = []
    · rw [if_pos h2]
      exact ⟨fun b hb => absurd hb (by simp), by simp⟩
    rw [if_neg h2]
    cases hgw : gw (st.toProcess.filter (· ∉ st.processed)) with
    | error e =>
      constructor
      · intro b hb q hq
        simp only [List.mem_singleton] at hb
        subst hb
        exact mem_filter_not_processed hq
      · simp
    | ok results =>
      have ihr := ih (depth + 1)
        ⟨(results.foldl (processResult mr md depth
            (addProcessed st.processed (st.toProcess.filter (· ∉ st.processed))))
            (st.allResults, [])).1,
         (results.foldl (processResult mr md depth
            (addProcessed st.processed (st.toProcess.filter (· ∉ st.processed))))
            (st.allResults, [])).2,
         addProcessed st.processed (st.toProcess.filter (· ∉ st.processed))⟩
      constructor
      · intro b hb q hq
        rcases List.mem_cons.1 hb with rfl | hb'
        · exact mem_filter_not_processed hq
        · intro hqp
          exact ihr.1 b hb' q hq (mem_addProcessed_left hqp)
      · rw [List.pairwise_cons]
        refine ⟨?_, ihr.2⟩
        intro b hb q hq
        intro hqb
        exact ihr.1 b hb q hqb (mem_addProcessed_right hq)

/-- C5: during one category's recursive search expansion no query string is
issued to the gateway at two different depth levels: the per-depth batches
are pairwise disjoint (each batch is filtered against the processed set,
which absorbs every issued batch). -/
theorem no_query_reissued_across_depths
    (gw : List String → Except Unit (List (Option SResult)))
    (queries : List String) (maxRelated maxDepth : Nat) :
    List.Pairwise (fun b1 b2 => ∀ q ∈ b1, q ∉ b2)
      (perform_single_type_super_search gw queries maxRelated maxDepth).2 :=
  (ssLoop_batches_disjoint gw maxRelated maxDepth (maxDepth + 1) 0
    ⟨[], queries, []⟩).2

end SerperMCP

namespace SerperMCP

theorem lookup_upsertA_self {β : Type} (l : List (String × β)) (k : String) (v : β) :
    (upsertA l k v).lookup k = some v := by
  induction l with
  | nil => simp [upsertA, List.lookup]
  | cons p t ih =>
    obtain ⟨a, b⟩ := p
    unfold upsertA
    by_cases h : a = k
    · rw [if_pos h]
      simp [List.lookup]
    · rw [if_neg h]
      have hba : (k == a) = false := beq_eq_false_iff_ne.2 (Ne.symm h)
      simp [List.lookup, hba, ih]

theorem lookup_upsertA_ne {β : Type} (l : List (String × β)) {k t : String}
    (h : k ≠ t) (v : β) : (upsertA l k v).lookup t = l.lookup t := by
  induction l with
  | nil =>
    have hba : (t == k) = false := beq_eq_false_iff_ne.2 (Ne.symm h)
    simp [upsertA, List.lookup, hba]
  | cons p tl ih =>
    obtain ⟨a, b⟩ := p
    unfold upsertA
    by_cases ha : a = k
    · rw [if_pos ha]
      have h1 : (t == k) = false := beq_eq_false_iff_ne.2 (Ne.symm h)
      have h2 : (t == a) = false := by rw [ha]; exact h1
      simp [List.lookup, h1, h2]
    · rw [if_neg ha]
      by_cases hta : t = a
      · simp [List.lookup, hta]
      · have h2 : (t == a) = false := beq_eq_false_iff_ne.2 hta
        simp [List.lookup, h2, ih]

theorem lookup_fold_upsert {β : Type} (g : String → β) :
    ∀ (ts : List String) (acc : List (String × β)) (t : String), t ∈ ts →
      (ts.foldl (fun acc x => upsertA acc x (g x)) acc).lookup t = some (g t) := by
  intro ts
  induction ts with
  | nil => intro acc t h; exact absurd h (by simp)
  | cons x ts' ih =>
    intro acc t ht
    by_cases h : t ∈ ts'
    · exact ih _ t h
    · have hx : t = x := by
        rcases List.mem_cons.1 ht with rfl | hmem
        · rfl
        · exact absurd hmem h
      subst hx
      show (ts'.foldl (fun acc x => upsertA acc x (g x)) (upsertA acc t (g t))).lookup t
        = some (g t)
      have preserve : ∀ (ts2 : List String) (acc2 : List (String × β)), t ∉ ts2 →
          (ts2.foldl (fun a x => upsertA a x (g x)) acc2).lookup t = acc2.lookup t := by
        intro ts2
        induction ts2 with
        | nil => intro acc2 _; rfl
        | cons y ts3 ih3 =>
          intro acc2 hty
          have hne : y ≠ t := fun he => hty (he ▸ List.mem_cons.2 (Or.inl rfl))
          show (ts3.foldl (fun a x => upsertA a x (g x)) (upsertA acc2 y (g y))).lookup t
            = acc2.lookup t
          rw [ih3 _ (fun hh => hty (List.mem_cons.2 (Or.inr hh)))]
          exact lookup_upsertA_ne acc2 hne (g y)
      rw [preserve ts' _ h, lookup_upsertA_self]

/-- C6: if the gateway errors on the batch issued at any depth, the
category's run stops at that depth and returns exactly the results
accumulated before the error together with the processed-query set as it
stood at the moment of the error (the erroring batch was marked processed
just before it was issued); the run is a total function (no raise, no
retry), and in `super_search` each category's aggregated entry is exactly
its own independent run, so one category's error cannot affect siblings. -/
theorem gateway_error_truncates_run :
    (∀ (gw : List String → Except Unit (List (Option SResult))) (mr md depth fuel : Nat)
       (st : SSState),
       st.toProcess ≠ [] →
       st.toProcess.filter (· ∉ st.processed) ≠ [] →
       gw (st.toProcess.filter (· ∉ st.processed)) = .error () →
       ssLoop gw mr md depth (fuel + 1) st =
         (⟨st.allResults, [],
           addProcessed st.processed (st.toProcess.filter (· ∉ st.processed))⟩,
          [st.toProcess.filter (· ∉ st.processed)])) ∧
    (∀ (gws : String → List String → Except Unit (List (Option SResult)))
       (types queries : List String) (mr md : Nat) (t : String), t ∈ types →
       (super_search gws types queries mr md).1.lookup t =
         some (perform_single_type_super_search (gws t) queries mr md).1.1) := by
  constructor
  · intro gw mr md depth fuel st h1 h2 hgw
    rw [ssLoop, if_neg h1, if_neg h2, hgw]
  · intro gws types queries mr md t ht
    unfold super_search
    simp only [List.foldl_map]
    exact lookup_fold_upsert
      (fun x => (perform_single_type_super_search (gws x) queries mr md).1.1)
      types [] t ht

/-- Witness for C6: a gateway that always errors, and a two-category search
where the lookup of one category equals its independent run. -/
theorem gateway_error_truncates_run_witness :
    ssLoop (fun _ => .error ()) 0 0 0 1 ⟨[], ["q"], []⟩ = (⟨[], [], ["q"]⟩, [["q"]]) ∧
    (super_search (fun _ _ => .error ()) ["search", "news"] ["q"] 2 1).1.lookup "news" =
      some (perform_single_type_super_search (fun _ => .error ()) ["q"] 2 1).1.1 :=
  ⟨gateway_error_truncates_run.1 (fun _ => .error ()) 0 0 0 0 ⟨[], ["q"], []⟩
      (by decide) (by decide) rfl,
   gateway_error_truncates_run.2 (fun _ _ => .error ()) ["search", "news"] ["q"] 2 1
      "news" (by decide)⟩

end SerperMCP

namespace SerperMCP

/-! ## Graph construction (`analyze_topic` Phase 5, source lines 1070-1101)

Nodes are an insertion-ordered association list from canonical name to
entity-type string; edges are an insertion-ordered list keyed by the
ordered (source, target) pair, with `G.add_edge` overwriting label/weight
in place when the pair already exists (networkx keeps the original
adjacency position). -/

/-- A relationship produced by the RHF extractor (and input to the Entity
Resolver and the Graph Builder).  The fixed strength 0.8 is a rational. -/
structure Rel where
  source : String
  source_type : String
  target : String
  target_type : String
  relationship : String
  strength : Rat
deriving DecidableEq

/-- `canonical_entity_map.get(x, x)`. -/
def cmapGet (cmap : List (String × String)) (x : String) : String :=
  (cmap.lookup x).getD x

/-- Replace the type stored for key `n` (first occurrence). -/
def setNodeType : List (String × String) → String → String → List (String × String)
  | [], _, _ => []
  | (m, ty0) :: rest, n, ty =>
    if m = n then (m, ty) :: rest else (m, ty0) :: setNodeType rest n ty

/-- Node insertion/upgrade rule of the source: on first insertion the node
gets the relationship's type; an existing node is changed only when its
stored type is "Unknown" and the incoming type is not. -/
def addNodeWithType (nodes : List (String × String)) (n ty : String) :
    List (String × String) :=
  match nodes.lookup n with
  | some existing =>
    if existing = "Unknown" ∧ ty ≠ "Unknown" then setNodeType nodes n ty else nodes
  | none => nodes ++ [(n, ty)]

/-- `G.add_edge` (last-write-wins per ordered pair, position kept). -/
def upsertEdge (edges : List (String × String × String × Rat))
    (s t lbl : String) (w : Rat) : List (String × String × String × Rat) :=
  if edges.any (fun e => e.1 = s ∧ e.2.1 = t) then
    edges.map (fun e => if e.1 = s ∧ e.2.1 = t then (s, t, lbl, w) else e)
  else edges ++ [(s, t, lbl, w)]

structure KGraph where
  nodes : List (String × String)
  edges : List (String × String × String × Rat)
deriving DecidableEq

/-- One iteration of the graph-construction loop. -/
def buildGraphStep (cmap : List (String × String)) (g : KGraph) (rel : Rel) : KGraph :=
  let sc := cmapGet cmap rel.source
  let tc := cmapGet cmap rel.target
  let n1 := addNodeWithType g.nodes sc rel.source_type
  let n2 := addNodeWithType n1 tc rel.target_type
  ⟨n2, upsertEdge g.edges sc tc rel.relationship rel.strength⟩

/-- Phase 5: fold the construction step over the relationship list. -/
def buildGraph (cmap : List (String × String)) (rels : List Rel) : KGraph :=
  rels.foldl (buildGraphStep cmap) ⟨[], []⟩

/-- A relationship mentions node `n` (after canonicalisation) with a
non-"Unknown" type. -/
def namesNonUnknown (cmap : List (String × String)) (rel : Rel) (n : String) : Prop :=
  (cmapGet cmap rel.source = n ∧ rel.source_type ≠ "Unknown") ∨
  (cmapGet cmap rel.target = n ∧ rel.target_type ≠ "Unknown")

end SerperMCP

namespace SerperMCP

/-! ### Lemmas for the node-type write rule -/

theorem lookup_setNodeType_ne (l : List (String × String)) {n m : String}
    (h : n ≠ m) (ty : String) : (setNodeType l m ty).lookup n = l.lookup n := by
  induction l with
  | nil => rfl
  | cons p t ih =>
    obtain ⟨a, b⟩ := p
    unfold setNodeType
    by_cases ha : a = m
    · rw [if_pos ha]
      have h1 : (n == a) = false := beq_eq_false_iff_ne.2 (ha ▸ h)
      have h2 : (n == m) = false := beq_eq_false_iff_ne.2 h
      simp [List.lookup, h1, h2]
    · rw [if_neg ha]
      by_cases hna : n = a
      · simp [List.lookup, hna]
      · have h1 : (n == a) = false := beq_eq_false_iff_ne.2 hna
        simp [List.lookup, h1, ih]

theorem lookup_setNodeType_self {l : List (String × String)} {n x : String}
    (h : l.lookup n = some x) (ty : String) :
    (setNodeType l n ty).lookup n = some ty := by
  induction l with
  | nil => exact absurd h (by simp)
  | cons p t ih =>
    obtain ⟨a, b⟩ := p
    unfold setNodeType
    by_cases ha : a = n
    · rw [if_pos ha]
      simp [List.lookup, ha]
    · rw [if_neg ha]
      have h1 : (n == a) = false := beq_eq_false_iff_ne.2 (fun he => ha he.symm)
      simp only [List.lookup, h1] at h ⊢
      exact ih h

theorem lookup_append_ne {l : List (String × String)} {n m : String}
    (h : n ≠ m) (ty : String) : (l ++ [(m, ty)]).lookup n = l.lookup n := by
  induction l with
  | nil =>
    have h1 : (n == m) = false := beq_eq_false_iff_ne.2 h
    simp [List.lookup, h1]
  | cons p t ih =>
    obtain ⟨a, b⟩ := p
    by_cases hna : n = a
    · simp [List.lookup, hna]
    · have h1 : (n == a) = false := beq_eq_false_iff_ne.2 hna
      simp only [List.cons_append, List.lookup, h1]
      exact ih

theorem lookup_addNode_ne (nodes : List (String × String)) {n m : String}
    (h : n ≠ m) (ty : String) :
    (addNodeWithType nodes m ty).lookup n = nodes.lookup n := by
  unfold addNodeWithType
  cases hm : nodes.lookup m with
  | some ex =>
    show ((if ex = "Unknown" ∧ ty ≠ "Unknown" then setNodeType nodes m ty
      else nodes)).lookup n = nodes.lookup n
    by_cases hc : ex = "Unknown" ∧ ty ≠ "Unknown"
    · rw [if_pos hc]
      exact lookup_setNodeType_ne nodes h ty
    · rw [if_neg hc]
  | none =>
    exact lookup_append_ne h ty

theorem lookup_addNode_keep {nodes : List (String × String)} {n t : String}
    (h : nodes.lookup n = some t) (ht : t ≠ "Unknown") (m ty : String) :
    (addNodeWithType nodes m ty).lookup n = some t := by
  by_cases hnm : n = m
  · subst hnm
    unfold addNodeWithType
    rw [h]
    show ((if t = "Unknown" ∧ ty ≠ "Unknown" then setNodeType nodes n ty
      else nodes)).lookup n = some t
    rw [if_neg (fun hc => ht hc.1)]
    exact h
  · rw [lookup_addNode_ne nodes hnm ty]
    exact h

end SerperMCP

namespace SerperMCP

theorem lookup_addNode_upgrade {nodes : List (String × String)} {n : String}
    (h : nodes.lookup n = some "Unknown") {ty : String} (hty : ty ≠ "Unknown") :
    (addNodeWithType nodes n ty).lookup n = some ty := by
  unfold addNodeWithType
  rw [h]
  show ((if ("Unknown" : String) = "Unknown" ∧ ty ≠ "Unknown" then setNodeType nodes n ty
    else nodes)).lookup n = some ty
  rw [if_pos ⟨rfl, hty⟩]
  exact lookup_setNodeType_self h ty

theorem lookup_addNode_present {nodes : List (String × String)} {n t : String}
    (h : nodes.lookup n = some t) (m ty : String) :
    ∃ t', (addNodeWithType nodes m ty).lookup n = some t' ∧
      (t' = t ∨ t' ≠ "Unknown") := by
  by_cases hnm : n = m
  · subst hnm
    by_cases ht : t = "Unknown"
    · subst ht
      by_cases hty : ty = "Unknown"
      · subst hty
        refine ⟨"Unknown", ?_, Or.inl rfl⟩
        unfold addNodeWithType
        rw [h]
        show ((if ("Unknown" : String) = "Unknown" ∧ ("Unknown" : String) ≠ "Unknown"
          then setNodeType nodes n "Unknown" else nodes)).lookup n = some "Unknown"
        rw [if_neg (fun hc => hc.2 rfl)]
        exact h
      · exact ⟨ty, lookup_addNode_upgrade h hty, Or.inr hty⟩
    · exact ⟨t, lookup_addNode_keep h ht n ty, Or.inl rfl⟩
  · rw [lookup_addNode_ne nodes hnm ty]
    exact ⟨t, h, Or.inl rfl⟩

/-- One construction step keeps a specific (non-"Unknown") node type. -/
theorem step_keeps_specific {cmap : List (String × String)} {g : KGraph} {n t : String}
    (h : g.nodes.lookup n = some t) (ht : t ≠ "Unknown") (rel : Rel) :
    (buildGraphStep cmap g rel).nodes.lookup n = some t := by
  unfold buildGraphStep
  exact lookup_addNode_keep (lookup_addNode_keep h ht _ _) ht _ _

/-- One construction step keeps a node present. -/
theorem step_keeps_present {cmap : List (String × String)} {g : KGraph} {n t : String}
    (h : g.nodes.lookup n = some t) (rel : Rel) :
    ∃ t', (buildGraphStep cmap g rel).nodes.lookup n = some t' := by
  obtain ⟨t1, h1, -⟩ := lookup_addNode_present h (cmapGet cmap rel.source) rel.source_type
  obtain ⟨t2, h2, -⟩ := lookup_addNode_present h1 (cmapGet cmap rel.target) rel.target_type
  exact ⟨t2, h2⟩

/-- A step whose relationship names `n` with a specific type leaves `n`
with a specific type. -/
theorem step_upgrades {cmap : List (String × String)} {g : KGraph} {n t : String}
    (h : g.nodes.lookup n = some t) {rel : Rel} (hm : namesNonUnknown cmap rel n) :
    ∃ t', (buildGraphStep cmap g rel).nodes.lookup n = some t' ∧ t' ≠ "Unknown" := by
  by_cases ht : t = "Unknown"
  · subst ht
    rcases hm with ⟨hsc, hsty⟩ | ⟨htc, htty⟩
    · have h1 : (addNodeWithType g.nodes (cmapGet cmap rel.source)
          rel.source_type).lookup n = some rel.source_type := by
        rw [← hsc] at h ⊢
        exact lookup_addNode_upgrade h hsty
      exact ⟨rel.source_type, lookup_addNode_keep h1 hsty _ _, hsty⟩
    · obtain ⟨t1, h1, ht1⟩ :=
        lookup_addNode_present h (cmapGet cmap rel.source) rel.source_type
      by_cases ht1u : t1 = "Unknown"
      · subst ht1u
        have h2 : (addNodeWithType (addNodeWithType g.nodes (cmapGet cmap rel.source)
            rel.source_type) (cmapGet cmap rel.target) rel.target_type).lookup n
            = some rel.target_type := by
          rw [← htc] at h1 ⊢
          exact lookup_addNode_upgrade h1 htty
        exact ⟨rel.target_type, h2, htty⟩
      · exact ⟨t1, lookup_addNode_keep h1 ht1u _ _, ht1u⟩
  · exact ⟨t, step_keeps_specific h ht rel, ht⟩

theorem fold_keeps_specific {cmap : List (String × String)} :
    ∀ (rels : List Rel) (g : KGraph) (n t : String),
      g.nodes.lookup n = some t → t ≠ "Unknown" →
      (rels.foldl (buildGraphStep cmap) g).nodes.lookup n = some t := by
  intro rels
  induction rels with
  | nil => intro g n t h _; exact h
  | cons r rs ih =>
    intro g n t h ht
    exact ih _ n t (step_keeps_specific h ht r) ht

theorem fold_upgrades {cmap : List (String × String)} :
    ∀ (rels : List Rel) (g : KGraph) (n t : String),
      g.nodes.lookup n = some t →
      (∃ rel ∈ rels, namesNonUnknown cmap rel n) →
      ∃ t', (rels.foldl (buildGraphStep cmap) g).nodes.lookup n = some t' ∧
        t' ≠ "Unknown" := by
  intro rels
  induction rels with
  | nil =>
    intro g n t h hex
    obtain ⟨rel, hmem, -⟩ := hex
    exact absurd hmem (by simp)
  | cons r rs ih =>
    intro g n t h hex
    by_cases hr : namesNonUnknown cmap r n
    · obtain ⟨t1, h1, ht1⟩ := step_upgrades h hr
      exact ⟨t1, fold_keeps_specific rs _ n t1 h1 ht1, ht1⟩
    · obtain ⟨rel, hmem, hn⟩ := hex
      rcases List.mem_cons.1 hmem with rfl | hmem'
      · exact absurd hn hr
      · obtain ⟨t1, h1⟩ := step_keeps_present h r
        exact ih _ n t1 h1 ⟨rel, hmem', hn⟩

/-- C4: node types are monotonic during graph construction.  Once a node
carries a non-"Unknown" type after some prefix of the relationship list, no
later relationship changes it (in particular never back to "Unknown"); and
a node typed "Unknown" after a prefix is upgraded to a specific type
whenever some later relationship names a non-"Unknown" type for it. -/
theorem node_type_monotonic :
    (∀ (cmap : List (String × String)) (rels1 rels2 : List Rel) (n t : String),
       (buildGraph cmap rels1).nodes.lookup n = some t → t ≠ "Unknown" →
       (buildGraph cmap (rels1 ++ rels2)).nodes.lookup n = some t) ∧
    (∀ (cmap : List (String × String)) (rels1 rels2 : List Rel) (n : String),
       (buildGraph cmap rels1).nodes.lookup n = some "Unknown" →
       (∃ rel ∈ rels2, namesNonUnknown cmap rel n) →
       ∃ t', (buildGraph cmap (rels1 ++ rels2)).nodes.lookup n = some t' ∧
         t' ≠ "Unknown") := by
  constructor
  · intro cmap rels1 rels2 n t h ht
    unfold buildGraph at h ⊢
    rw [List.foldl_append]
    exact fold_keeps_specific rels2 _ n t h ht
  · intro cmap rels1 rels2 n h hex
    unfold buildGraph at h ⊢
    rw [List.foldl_append]
    exact fold_upgrades rels2 _ n "Unknown" h hex

def c4rel1 : Rel := ⟨"a", "Person", "b", "Unknown", "knows", (8 : Rat) / 10⟩

def c4rel2 : Rel := ⟨"a", "Unknown", "b", "Organization", "works at", (8 : Rat) / 10⟩

/-- Witness for C4: after `c4rel1`, node "a" is "Person" and "b" is
"Unknown"; appending `c4rel2` (which mentions "a" as "Unknown" and "b" as
"Organization") keeps "a" at "Person" and upgrades "b". -/
theorem node_type_monotonic_witness :
    (buildGraph [] ([c4rel1] ++ [c4rel2])).nodes.lookup "a" = some "Person" ∧
    (∃ t', (buildGraph [] ([c4rel1] ++ [c4rel2])).nodes.lookup "b" = some t' ∧
      t' ≠ "Unknown") :=
  ⟨node_type_monotonic.1 [] [c4rel1] [c4rel2] "a" "Person" (by decide) (by decide),
   node_type_monotonic.2 [] [c4rel1] [c4rel2] "b" (by decide)
     ⟨c4rel2, List.mem_singleton.2 rfl, Or.inr ⟨by decide, by decide⟩⟩⟩

end SerperMCP

namespace SerperMCP

/-! ## `_linearize_graph_for_llm` (source lines 704-739)

The graph handed to linearization carries per-node `type` and
`centrality.degree` attributes (read through chained `.get` with defaults)
and per-edge `label` / `weight` attributes.  `sorted(..., reverse=True)` is
a stable descending sort by degree; networkx iterates nodes and each
node's in/out edges in insertion order, so nodes are a keyed list and
`out_edges`/`in_edges` are order-preserving filters of the edge list.
Python's float formatting `:.2f` is modelled as exact rational rounding
half-to-even at two decimals. -/

structure LNode where
  ty : Option String
  centDegree : Option Rat
deriving DecidableEq

structure LEdge where
  src : String
  tgt : String
  label : Option String
  weight : Option Rat
deriving DecidableEq

structure LGraph where
  nodes : List (String × LNode)
  edges : List LEdge

/-- `data.get('centrality', {}).get('degree', 0)`. -/
def degOf (nd : LNode) : Rat := nd.centDegree.getD 0

/-- Round half-to-even (IEEE default, used by Python float formatting). -/
def roundHalfEven (q : Rat) : Int :=
  let fl := ⌊q⌋
  let fr := q - (fl : Rat)
  if 1 / 2 < fr then fl + 1
  else if fr < 1 / 2 then fl
  else if fl % 2 = 0 then fl else fl + 1

/-- Python `f"{x:.2f}"` on an exact rational. -/
def fmt2 (q : Rat) : String :=
  let n := roundHalfEven (q * 100)
  let a := n.natAbs
  (if n < 0 then "-" else "") ++ toString (a / 100) ++ "." ++
    (if a % 100 < 10 then "0" else "") ++ toString (a % 100)

/-- Stable descending insertion by degree: an element is placed before the
first existing element of smaller-or-equal degree coming from later in the
original list, i.e. ties keep original order (Python's sort is stable). -/
def insertByDeg (x : String × LNode) : List (String × LNode) → List (String × LNode)
  | [] => [x]
  | y :: t => if degOf y.2 ≤ degOf x.2 then x :: y :: t else y :: insertByDeg x t

/-- `sorted(graph.nodes(data=True), key=degree, reverse=True)`. -/
def sortNodesDesc : List (String × LNode) → List (String × LNode)
  | [] => []
  | x :: t => insertByDeg x (sortNodesDesc t)

/-- The lines emitted for one node: its header, then its outgoing edges,
then its incoming edges. -/
def renderNodeLines (g : LGraph) (nd : String × LNode) : List String :=
  let outs := g.edges.filter (fun e => e.src = nd.1)
  let ins := g.edges.filter (fun e => e.tgt = nd.1)
  ("- **Entity:** " ++ nd.1 ++ " (Type: " ++ nd.2.ty.getD "Unknown" ++ ")") ::
    ((if outs ≠ [] then
        "  - **Connects To:**" ::
          outs.map (fun e => "    - " ++ e.label.getD "related to" ++ " -> " ++ e.tgt ++
            " (Strength: " ++ fmt2 (e.weight.getD 0) ++ ")")
      else []) ++
     (if ins ≠ [] then
        "  - **Is Connected From:**" ::
          ins.map (fun e => "    - " ++ e.src ++ " -> " ++ e.label.getD "related to" ++
            " (Strength: " ++ fmt2 (e.weight.getD 0) ++ ")")
      else []))

/-- `_linearize_graph_for_llm`. -/
def linearize_graph_for_llm (g : LGraph) : String :=
  if g.nodes = [] then "The knowledge graph is empty."
  else
    String.intercalate "\n"
      ("### Knowledge Graph Summary (Ordered by Importance)\n" ::
        ((sortNodesDesc g.nodes).map (renderNodeLines g)).flatten)

theorem insertByDeg_perm (x : String × LNode) :
    ∀ l : List (String × LNode), List.Perm (insertByDeg x l) (x :: l) := by
  intro l
  induction l with
  | nil => exact List.Perm.refl _
  | cons y t ih =>
    unfold insertByDeg
    by_cases h : degOf y.2 ≤ degOf x.2
    · rw [if_pos h]
    · rw [if_neg h]
      exact (ih.cons y).trans (List.Perm.swap x y t)

theorem sortNodesDesc_perm :
    ∀ l : List (String × LNode), List.Perm (sortNodesDesc l) l := by
  intro l
  induction l with
  | nil => exact List.Perm.refl _
  | cons x t ih =>
    exact (insertByDeg_perm x (sortNodesDesc t)).trans (ih.cons x)

theorem insertByDeg_pairwise (x : String × LNode) :
    ∀ {l : List (String × LNode)},
      List.Pairwise (fun a b => degOf b.2 ≤ degOf a.2) l →
      List.Pairwise (fun a b => degOf b.2 ≤ degOf a.2) (insertByDeg x l) := by
  intro l
  induction l with
  | nil => intro _; simp [insertByDeg]
  | cons y t ih =>
    intro h
    rw [List.pairwise_cons] at h
    unfold insertByDeg
    by_cases hd : degOf y.2 ≤ degOf x.2
    · rw [if_pos hd]
      rw [List.pairwise_cons]
      refine ⟨?_, List.pairwise_cons.2 h⟩
      intro z hz
      rcases List.mem_cons.1 hz with rfl | hz'
      · exact hd
      · exact le_trans (h.1 z hz') hd
    · rw [if_neg hd]
      rw [List.pairwise_cons]
      refine ⟨?_, ih h.2⟩
      intro z hz
      have hz2 := (insertByDeg_perm x t).mem_iff.1 hz
      rcases List.mem_cons.1 hz2 with rfl | hz'
      · exact le_of_lt (lt_of_not_ge hd)
      · exact h.1 z hz'

theorem sortNodesDesc_pairwise :
    ∀ l : List (String × LNode),
      List.Pairwise (fun a b => degOf b.2 ≤ degOf a.2) (sortNodesDesc l) := by
  intro l
  induction l with
  | nil => simp [sortNodesDesc]
  | cons x t ih => exact insertByDeg_pairwise x ih

/-- C8: linearization is a function of the graph (determinism); the empty
graph yields the fixed non-empty sentinel; a non-empty graph is rendered
as the header followed by each node's block — outgoing then incoming edges
beneath the node line — with the nodes in descending degree-centrality
order (stable, hence deterministic). -/
theorem graph_linearization_spec :
    (linearize_graph_for_llm ⟨[], []⟩ = "The knowledge graph is empty.") ∧
    ("The knowledge graph is empty." ≠ "") ∧
    (∀ g : LGraph, g.nodes = [] →
      linearize_graph_for_llm g = "The knowledge graph is empty.") ∧
    (∀ g : LGraph, List.Perm (sortNodesDesc g.nodes) g.nodes) ∧
    (∀ g : LGraph,
      List.Pairwise (fun a b => degOf b.2 ≤ degOf a.2) (sortNodesDesc g.nodes)) ∧
    (∀ g : LGraph, g.nodes ≠ [] →
      linearize_graph_for_llm g =
        String.intercalate "\n"
          ("### Knowledge Graph Summary (Ordered by Importance)\n" ::
            ((sortNodesDesc g.nodes).map (renderNodeLines g)).flatten)) := by
  refine ⟨rfl, by decide, ?_, ?_, ?_, ?_⟩
  · intro g h
    unfold linearize_graph_for_llm
    rw [if_pos h]
  · intro g
    exact sortNodesDesc_perm g.nodes
  · intro g
    exact sortNodesDesc_pairwise g.nodes
  · intro g h
    unfold linearize_graph_for_llm
    rw [if_neg h]

/-- Witness for C8 at a concrete two-node graph: node "b" (degree 0.9)
is listed before node "a" (degree 0.2). -/
theorem graph_linearization_spec_witness :
    linearize_graph_for_llm ⟨[], []⟩ = "The knowledge graph is empty." ∧
    List.Pairwise (fun a b => degOf b.2 ≤ degOf a.2)
      (sortNodesDesc [("a", ⟨some "Person", some ((2 : Rat) / 10)⟩),
                      ("b", ⟨some "Concept", some ((9 : Rat) / 10)⟩)]) ∧
    linearize_graph_for_llm
        ⟨[("a", ⟨some "Person", some ((2 : Rat) / 10)⟩),
          ("b", ⟨some "Concept", some ((9 : Rat) / 10)⟩)], []⟩ =
      String.intercalate "\n"
        ("### Knowledge Graph Summary (Ordered by Importance)\n" ::
          ((sortNodesDesc [("a", ⟨some "Person", some ((2 : Rat) / 10)⟩),
                           ("b", ⟨some "Concept", some ((9 : Rat) / 10)⟩)]).map
            (renderNodeLines ⟨[("a", ⟨some "Person", some ((2 : Rat) / 10)⟩),
                               ("b", ⟨some "Concept", some ((9 : Rat) / 10)⟩)], []⟩)).flatten) :=
  ⟨graph_linearization_spec.1,
   graph_linearization_spec.2.2.2.2.1
     ⟨[("a", ⟨some "Person", some ((2 : Rat) / 10)⟩),
       ("b", ⟨some "Concept", some ((9 : Rat) / 10)⟩)], []⟩,
   graph_linearization_spec.2.2.2.2.2
     ⟨[("a", ⟨some "Person", some ((2 : Rat) / 10)⟩),
       ("b", ⟨some "Concept", some ((9 : Rat) / 10)⟩)], []⟩
     (by simp)⟩

end SerperMCP

namespace SerperMCP

/-! ## `analyze_topic` phases 1-3 (source lines 784-880)

The source runs Phase 1 (`super_search`), Phase 2 (URL collection and
parallel scraping) and only THEN, at the top of Phase 3, checks
`os.getenv("OPENAI_API_KEY")`, returning the structured payload
`{"status": "Error", "message": "OPENAI_API_KEY not set."}` when the key is
absent.  The model records an event trace — the search phase, one scrape
event per attempted (truthy) URL, then the key check — and abstracts
everything after the key check (the RHF extraction, resolution, graph and
summarization phases, whose pure parts are modelled separately in this
file) as a continuation `rest` that contributes its own events. -/

inductive PipeEv where
  | searchPhase : PipeEv
  | scrapeUrl : String → PipeEv
  | keyCheck : PipeEv
deriving DecidableEq

structure ErrPayload where
  status : String
  message : String
deriving DecidableEq

/-- One `scrapeUrl` event per URL attempted (falsy URLs are skipped before
any work, mirroring `scrape_single_url`). -/
def scrapeEvents (urls : List (Option String)) : List PipeEv :=
  urls.filterMap (fun u =>
    match u with
    | none => none
    | some s => if s = "" then none else some (PipeEv.scrapeUrl s))

structure ATEnv where
  hasOpenAIKey : Bool
  gws : String → List String → Except Unit (List (Option SResult))
  fetch : String → Except Unit String

/-- `analyze_topic` through its key check: search expansion with
`max_related_searches = 2`, URL collection capped by `max_urls_per_query`,
parallel scraping, then the `OPENAI_API_KEY` check. -/
def analyze_topic_model {α : Type} (env : ATEnv)
    (rest : List (String × String) → α × List PipeEv)
    (query : String) (search_depth max_urls_per_query : Nat)
    (search_types : List String) : Except ErrPayload α × List PipeEv :=
  let sr := super_search env.gws search_types [query] 2 search_depth
  let urls := collectUrls sr.1 max_urls_per_query
  let docs := scrapeAll env.fetch urls
  let evs := PipeEv.searchPhase :: scrapeEvents urls
  if env.hasOpenAIKey = false then
    (.error ⟨"Error", "OPENAI_API_KEY not set."⟩, evs ++ [PipeEv.keyCheck])
  else
    ((.ok (rest docs).1), evs ++ [PipeEv.keyCheck] ++ (rest docs).2)

def c3Env : ATEnv :=
  { hasOpenAIKey := false,
    gws := fun _ _ => .ok [some ⟨some "q0", some [], [⟨some "u"⟩], [], []⟩],
    fetch := fun _ => .ok "content" }

def c3Rest : List (String × String) → Unit × List PipeEv := fun _ => ((), [])

/-- C3 counterexample: with the LLM credential absent, the call still
performs the search phase and scrapes URL "u" BEFORE returning the
structured error at the key check — the trace is not the bare key check
the claim requires (no pipeline work before the short-circuit). -/
theorem missing_key_counterexample :
    analyze_topic_model c3Env c3Rest "q" 1 3 ["search"] =
      (.error ⟨"Error", "OPENAI_API_KEY not set."⟩,
       [PipeEv.searchPhase, PipeEv.scrapeUrl "u", PipeEv.keyCheck]) ∧
    PipeEv.scrapeUrl "u" ∈
      [PipeEv.searchPhase, PipeEv.scrapeUrl "u", PipeEv.keyCheck] ∧
    [PipeEv.searchPhase, PipeEv.scrapeUrl "u", PipeEv.keyCheck] ≠ [PipeEv.keyCheck] := by
  refine ⟨rfl, by decide, by decide⟩

/-- C3 (amended): the missing-credential condition is checked once, AFTER
search expansion, URL collection and scraping; when the credential is
absent the call returns the structured error payload and performs no
further pipeline work (no extraction/summarization events: the trace is
exactly the search phase, the scrape attempts, and the key check). -/
theorem missing_key_short_circuits_after_collection :
    ∀ {α : Type} (env : ATEnv) (rest : List (String × String) → α × List PipeEv)
      (query : String) (sd mu : Nat) (sts : List String),
      env.hasOpenAIKey = false →
      analyze_topic_model env rest query sd mu sts =
        (.error ⟨"Error", "OPENAI_API_KEY not set."⟩,
         (PipeEv.searchPhase ::
           scrapeEvents (collectUrls (super_search env.gws sts [query] 2 sd).1 mu)) ++
           [PipeEv.keyCheck]) := by
  intro α env rest query sd mu sts hkey
  unfold analyze_topic_model
  rw [hkey]
  rfl

/-- Witness for the amended C3 theorem at the concrete keyless
environment. -/
theorem missing_key_short_circuits_witness :
    analyze_topic_model c3Env c3Rest "q" 1 3 ["search"] =
      (.error ⟨"Error", "OPENAI_API_KEY not set."⟩,
       (PipeEv.searchPhase ::
         scrapeEvents (collectUrls (super_search c3Env.gws ["search"] ["q"] 2 1).1 3)) ++
         [PipeEv.keyCheck]) :=
  missing_key_short_circuits_after_collection c3Env c3Rest "q" 1 3 ["search"] rfl

end SerperMCP

namespace SerperMCP

/-! ## `difflib.SequenceMatcher(None, a, b).ratio()`

Faithful embedding of CPython's difflib matcher with `isjunk = None`:
`b2j` maps each character of `b` to its ascending index list, dropping
"popular" characters when `len(b) >= 200` (autojunk); `find_longest_match`
runs the per-`i` dynamic program over `b2j` (the `j2len` dict is a function
with pointwise updates; the `continue`/`break` window checks on the
ascending index list are a filter), then the non-junk extension loops (the
junk set is empty, so the junk extension loops never fire);
`get_matching_blocks` sums block sizes by recursing on both sides of each
longest match; `ratio()` compares `2 * matches / (len(a) + len(b))` — the
comparison against the literal thresholds is done in exact rational
arithmetic by cross-multiplication. -/

def b2jOf (b : List Char) (c : Char) : List Nat :=
  if 200 ≤ b.length ∧ b.length / 100 + 1 < b.count c then []
  else b.enum.filterMap (fun p => if p.2 = c then some p.1 else none)

/-- The inner `for j in b2j.get(a[i], [])` loop: reads `j2len` (previous
row), writes a fresh `newj2len`, tracks the best block. -/
def flmInner (j2len : Nat → Nat) (i : Nat) (js : List Nat)
    (best : Nat × Nat × Nat) : (Nat → Nat) × (Nat × Nat × Nat) :=
  js.foldl (fun acc j =>
    let k := (if j = 0 then 0 else j2len (j - 1)) + 1
    ((fun x => if x = j then k else acc.1 x),
     if acc.2.2.2 < k then (i + 1 - k, j + 1 - k, k) else acc.2))
    ((fun _ => 0), best)

/-- The outer `for i in range(alo, ahi)` loop of `find_longest_match`
(only `a` and `b2j` — precomputed from `b` — feed the dynamic program). -/
def flmCore (a : List Char) (b2jf : Char → List Nat)
    (alo ahi blo bhi : Nat) : Nat × Nat × Nat :=
  (((List.range (ahi - alo)).map (· + alo)).foldl
    (fun (acc : (Nat → Nat) × (Nat × Nat × Nat)) i =>
      flmInner acc.1 i ((b2jf (a.getD i ' ')).filter (fun j => blo ≤ j ∧ j < bhi)) acc.2)
    ((fun _ => 0), (alo, blo, 0))).2

/-- The first (non-junk) extension while-loop; each iteration decreases
`besti`, so fuel `besti - alo` is exact and a larger fuel is safe. -/
def extendLeft (a b : List Char) (alo blo : Nat) :
    Nat → Nat × Nat × Nat → Nat × Nat × Nat
  | 0, st => st
  | fuel + 1, (bi, bj, bs) =>
    if alo < bi ∧ blo < bj ∧ a.getD (bi - 1) ' ' = b.getD (bj - 1) ' ' then
      extendLeft a b alo blo fuel (bi - 1, bj - 1, bs + 1)
    else (bi, bj, bs)

/-- The second (non-junk) extension while-loop. -/
def extendRight (a b : List Char) (ahi bhi : Nat) :
    Nat → Nat × Nat × Nat → Nat × Nat × Nat
  | 0, st => st
  | fuel + 1, (bi, bj, bs) =>
    if bi + bs < ahi ∧ bj + bs < bhi ∧ a.getD (bi + bs) ' ' = b.getD (bj + bs) ' ' then
      extendRight a b ahi bhi fuel (bi, bj, bs + 1)
    else (bi, bj, bs)

def find_longest_match (a b : List Char) (b2jf : Char → List Nat)
    (alo ahi blo bhi : Nat) : Nat × Nat × Nat :=
  extendRight a b ahi bhi (a.length + b.length + 1)
    (extendLeft a b alo blo (a.length + b.length + 1)
      (flmCore a b2jf alo ahi blo bhi))

/-- Total size of all matching blocks (`get_matching_blocks` recursion on
both sides of each longest match; the recursion depth is bounded by the
`a`-window width, which shrinks strictly at every level). -/
def matchBlocksTotal (a b : List Char) (b2jf : Char → List Nat) :
    Nat → Nat → Nat → Nat → Nat → Nat
  | 0, _, _, _, _ => 0
  | fuel + 1, alo, ahi, blo, bhi =>
    let m := find_longest_match a b b2jf alo ahi blo bhi
    if m.2.2 = 0 then 0
    else
      matchBlocksTotal a b b2jf fuel alo m.1 blo m.2.1 + m.2.2 +
        matchBlocksTotal a b b2jf fuel (m.1 + m.2.2) ahi (m.2.1 + m.2.2) bhi

def seqMatchTotal (a b : List Char) : Nat :=
  matchBlocksTotal a b (b2jOf b) (a.length + 1) 0 a.length 0 b.length

/-- `SequenceMatcher(None, a, b).ratio() >= tn / td`, by exact
cross-multiplication (`ratio` is `2 * M / (len a + len b)`; for two empty
strings both sides degenerate to a true comparison, matching
`_calculate_ratio`'s special case `1.0`). -/
def seqSimGe (a b : List Char) (tn td : Nat) : Bool :=
  tn * (a.length + b.length) ≤ 2 * seqMatchTotal a b * td

/-! ## `_resolve_entities_with_splink` (source lines 568-670) -/

/-- `entity.lower().strip()`. -/
def pyNorm (s : String) : String := pyStrip (pyLower s)

/-- `sequence_similarity >= 0.85` on the normalized strings. -/
def cond_seq (e1 e2 : String) : Bool :=
  seqSimGe (pyNorm e1).data (pyNorm e2).data 17 20

/-- Python's substring test `p in l` (contiguous; the empty string is a
substring of everything). -/
def infixOfB (p : List Char) : List Char → Bool
  | [] => decide (p = [])
  | c :: t => p.isPrefixOf (c :: t) || infixOfB p t

/-- `norm1 in norm2 or norm2 in norm1`. -/
def cond_substr (e1 e2 : String) : Bool :=
  infixOfB (pyNorm e1).data (pyNorm e2).data ∨
    infixOfB (pyNorm e2).data (pyNorm e1).data

/-- `shorter_len >= 3 and shorter_len / longer_len >= 0.6` (exact
rational comparison `5 * shorter >= 3 * longer`). -/
def cond_substr_len (e1 e2 : String) : Bool :=
  3 ≤ min (pyNorm e1).length (pyNorm e2).length ∧
    3 * max (pyNorm e1).length (pyNorm e2).length ≤
      5 * min (pyNorm e1).length (pyNorm e2).length

def prefixesToRemove : List String := ["the ", "sir ", "dr ", "prof ", "mr ", "ms ", "mrs "]

def suffixesToRemove : List String := [" inc", " corp", " company", " ltd", " llc"]

/-- The sequential prefix/suffix stripping of the `else` branch (each affix
in list order, stripped at most once when present). -/
def stripAffixes (s : String) : String :=
  suffixesToRemove.foldl
    (fun c p => if p.data.isSuffixOf c.data then ⟨c.data.take (c.data.length - p.data.length)⟩ else c)
    (prefixesToRemove.foldl
      (fun c p => if p.data.isPrefixOf c.data then ⟨c.data.drop p.data.length⟩ else c) s)

/-- `clean_similarity >= 0.9` on the affix-stripped normalized strings. -/
def cond_clean (e1 e2 : String) : Bool :=
  seqSimGe (stripAffixes (pyNorm e1)).data (stripAffixes (pyNorm e2)).data 9 10

/-- The `if / elif / else` similarity decision of the source.  Note the
`elif`: when one normalized string is a substring of the other but the
length tests fail, the affix-stripped comparison of the `else` branch is
never reached. -/
def is_similar (e1 e2 : String) : Bool :=
  if cond_seq e1 e2 then true
  else if cond_substr e1 e2 then cond_substr_len e1 e2
  else cond_clean e1 e2

end SerperMCP

namespace SerperMCP

/-! ### The union-find resolution

The Python dict `canonical_mapping` (initialized to the identity on the
entity set) is a total function with pointwise update; `find_canonical`'s
recursion (with path compression) carries fuel equal to the number of
distinct entities, which the invariant below proves sufficient: parent
chains strictly ascend a measure and stay inside the entity set, so they
visit distinct entities. -/

/-- The distinct source/target strings, in first-occurrence order (the
source uses a Python `set`; its iteration order is an implementation
detail, so the model fixes first-occurrence order — the claims proved here
do not depend on the order). -/
def entityList (rels : List Rel) : List String :=
  rels.foldl (fun es r => insertIfAbsent (insertIfAbsent es r.source) r.target) []

/-- Pointwise update `canonical_mapping[x] = v`. -/
def updE (m : String → String) (x v : String) : String → String :=
  fun z => if z = x then v else m z

/-- `find_canonical` with path compression: returns the root and the
compressed mapping. -/
def findC (m : String → String) : String → Nat → String × (String → String)
  | x, 0 => (x, m)
  | x, fuel + 1 =>
    if m x = x then (x, m)
    else
      let r := findC m (m x) fuel
      (r.1, updE r.2 x r.1)

/-- `union_entities`: find both roots (compressing), then point the
shorter root at the longer (ties keep the first argument's root). -/
def union_entities (fuel : Nat) (m : String → String) (e1 e2 : String) :
    String → String :=
  let f1 := findC m e1 fuel
  let f2 := findC f1.2 e2 fuel
  if f1.1 ≠ f2.1 then
    if f2.1.length ≤ f1.1.length then updE f2.2 f2.1 f1.1
    else updE f2.2 f1.1 f2.1
  else f2.2

/-- The inner loop `for j in range(i + 1, len(entities_list))`. -/
def unionRow (fuel : Nat) (m : String → String) (e1 : String)
    (rest : List String) : String → String :=
  rest.foldl (fun m e2 => if is_similar e1 e2 then union_entities fuel m e1 e2 else m) m

/-- The outer loop `for i in range(len(entities_list))`. -/
def unionPairs (fuel : Nat) (m : String → String) : List String → (String → String)
  | [] => m
  | e :: rest => unionPairs fuel (unionRow fuel m e rest) rest

/-- The final `for entity in entities_list: final_mapping[entity] =
find_canonical(entity)` pass (still mutating the mapping by compression). -/
def finalPass (fuel : Nat) (m : String → String) :
    List String → List (String × String) × (String → String)
  | [] => ([], m)
  | e :: rest =>
    let f := findC m e fuel
    let fr := finalPass fuel f.2 rest
    ((e, f.1) :: fr.1, fr.2)

/-- `_resolve_entities_with_splink`: the returned canonical map, as an
association list keyed by the entity list (empty input yields the empty
map). -/
def resolve_entities_with_splink (rels : List Rel) : List (String × String) :=
  (finalPass (entityList rels).length
    (unionPairs (entityList rels).length (fun x => x) (entityList rels))
    (entityList rels)).1

end SerperMCP

namespace SerperMCP

/-! ### Union-find invariants

`stepRel m x y` is one parent step of the mapping; `Reaches m x r` says the
parent chain from `x` ends at the fixed point `r`.  The invariant `UFInv`
certifies: non-trivial entries stay inside the entity set, and a measure
strictly increases along parent links (so chains terminate and their length
is bounded by the number of entities, which justifies the fuel). -/

def stepRel (m : String → String) (x y : String) : Prop := m x = y ∧ m x ≠ x

def Reaches (m : String → String) (x r : String) : Prop :=
  Relation.ReflTransGen (stepRel m) x r ∧ m r = r

def SameRoot (m : String → String) (a b : String) : Prop :=
  ∃ r, Reaches m a r ∧ Reaches m b r

structure UFInv (E : List String) (m : String → String) (ρ : String → Nat) : Prop where
  closed : ∀ x, m x ≠ x → x ∈ E ∧ m x ∈ E
  meas : ∀ x, m x ≠ x → ρ x < ρ (m x)

def UFInvP (E : List String) (m : String → String) : Prop := ∃ ρ, UFInv E m ρ

theorem reaches_self {m : String → String} {r : String} (h : m r = r) :
    Reaches m r r := ⟨Relation.ReflTransGen.refl, h⟩

theorem rtg_of_root {m : String → String} {x y : String} (hx : m x = x)
    (h : Relation.ReflTransGen (stepRel m) x y) : y = x := by
  rcases h.cases_head with rfl | ⟨c, hc, -⟩
  · rfl
  · exact absurd hx hc.2

theorem reaches_unique {m : String → String} :
    ∀ {x r1 : String}, Relation.ReflTransGen (stepRel m) x r1 → m r1 = r1 →
      ∀ {r2 : String}, Relation.ReflTransGen (stepRel m) x r2 → m r2 = r2 → r1 = r2 := by
  intro x r1 h1
  induction h1 using Relation.ReflTransGen.head_induction_on with
  | refl =>
    intro hr1 r2 h2 hr2
    exact (rtg_of_root hr1 h2).symm
  | head step rtg ih =>
    rename_i z c
    intro hr1 r2 h2 hr2
    rcases h2.cases_head with rfl | ⟨c2, hc2, h2'⟩
    · exact absurd hr2 step.2
    · have hcc : c2 = c := by rw [← hc2.1, ← step.1]
      subst hcc
      exact ih hr1 h2' hr2

theorem reaches_mem {E : List String} {m : String → String} {ρ : String → Nat}
    (inv : UFInv E m ρ) :
    ∀ {x r : String}, Relation.ReflTransGen (stepRel m) x r → r = x ∨ r ∈ E := by
  intro x r h
  induction h with
  | refl => exact Or.inl rfl
  | tail h1 step ih =>
    rcases step with ⟨he, hne⟩
    exact Or.inr (he ▸ (inv.closed _ hne).2)

theorem meas_le {E : List String} {m : String → String} {ρ : String → Nat}
    (inv : UFInv E m ρ) :
    ∀ {x y : String}, Relation.ReflTransGen (stepRel m) x y → ρ x ≤ ρ y := by
  intro x y h
  induction h with
  | refl => exact le_refl _
  | tail h1 step ih =>
    rcases step with ⟨he, hne⟩
    exact le_trans ih (he ▸ le_of_lt (inv.meas _ hne))

/-- Count of entities at-or-above the measure of `x`: the fuel budget a
chain from `x` can consume. -/
def measCount (E : List String) (ρ : String → Nat) (x : String) : Nat :=
  E.countP (fun e => ρ x ≤ ρ e)

theorem countP_mono_of_imp {p q : String → Bool} (h : ∀ a, q a = true → p a = true) :
    ∀ t : List String, t.countP q ≤ t.countP p := by
  intro t
  induction t with
  | nil => simp
  | cons a l ih =>
    by_cases hq : q a = true
    · rw [List.countP_cons_of_pos q l hq, List.countP_cons_of_pos p l (h a hq)]
      omega
    · rw [List.countP_cons_of_neg q l (by simpa using hq)]
      by_cases hp : p a = true
      · rw [List.countP_cons_of_pos p l hp]
        omega
      · rw [List.countP_cons_of_neg p l (by simpa using hp)]
        exact ih

theorem countP_strict {E : List String} {p q : String → Bool}
    (himp : ∀ a, q a = true → p a = true) {x : String} (hx : x ∈ E)
    (hpx : p x = true) (hqx : q x = false) :
    E.countP q < E.countP p := by
  induction E with
  | nil => exact absurd hx (by simp)
  | cons h t ih =>
    rcases List.mem_cons.1 hx with rfl | hxt
    · rw [List.countP_cons_of_pos p t hpx,
        List.countP_cons_of_neg q t (by simp [hqx])]
      have := countP_mono_of_imp himp t
      omega
    · have := ih hxt
      by_cases hq : q h = true
      · rw [List.countP_cons_of_pos q t hq, List.countP_cons_of_pos p t (himp h hq)]
        omega
      · rw [List.countP_cons_of_neg q t (by simpa using hq)]
        by_cases hp : p h = true
        · rw [List.countP_cons_of_pos p t hp]
          omega
        · rw [List.countP_cons_of_neg p t (by simpa using hp)]
          exact this

theorem measCount_lt {E : List String} {m : String → String} {ρ : String → Nat}
    (inv : UFInv E m ρ) {x : String} (hx : m x ≠ x) :
    measCount E ρ (m x) < measCount E ρ x := by
  unfold measCount
  have hstep := inv.meas x hx
  refine countP_strict (fun a ha => ?_) (inv.closed x hx).1 (by simp) ?_
  · rw [decide_eq_true_iff] at ha ⊢
    omega
  · rw [decide_eq_false_iff_not]
    omega

theorem measCount_le_len (E : List String) (ρ : String → Nat) (x : String) :
    measCount E ρ x ≤ E.length :=
  List.countP_le_length _

end SerperMCP


namespace SerperMCP

theorem updE_self (m : String → String) (x v : String) : updE m x v x = v := by
  unfold updE
  rw [if_pos rfl]

theorem updE_ne (m : String → String) {z x : String} (h : z ≠ x) (v : String) :
    updE m x v z = m z := by
  unfold updE
  rw [if_neg h]

/-- Path compression step: pointing a non-root `x` directly at its root `r`
changes no reachability facts. -/
theorem reaches_upd_iff {m : String → String} {x r : String}
    (hx : m x ≠ x) (hr : Reaches m x r) :
    ∀ z w, Reaches (updE m x r) z w ↔ Reaches m z w := by
  have hrx : r ≠ x := fun he => hx (he ▸ hr.2)
  have hupdr : updE m x r r = r := by
    rw [updE_ne m hrx r]
    exact hr.2
  have hstep_x : stepRel (updE m x r) x r := by
    refine ⟨updE_self m x r, ?_⟩
    rw [updE_self m x r]
    exact hrx
  have hreach_x : Reaches (updE m x r) x r :=
    ⟨Relation.ReflTransGen.single hstep_x, hupdr⟩
  intro z w
  constructor
  · rintro ⟨rtg, hroot⟩
    have hwx : w ≠ x := by
      intro he
      rw [he, updE_self m x r] at hroot
      exact hrx hroot
    have hmw : m w = w := by
      rw [updE_ne m hwx r] at hroot
      exact hroot
    induction rtg using Relation.ReflTransGen.head_induction_on with
    | refl => exact reaches_self hmw
    | @head z1 c step rtg2 ih =>
      by_cases hz1 : z1 = x
      · have hc : c = r := by
          rw [← step.1, hz1, updE_self m x r]
        have hih : Reaches m c w := ih
        have hw : w = c := rtg_of_root (hc ▸ hr.2) hih.1
        rw [hz1, hw, hc]
        exact hr
      · have hstep : stepRel m z1 c := by
          have h1 := step.1
          have h2 := step.2
          rw [updE_ne m hz1 r] at h1 h2
          exact ⟨h1, h2⟩
        exact ⟨ih.1.head hstep, ih.2⟩
  · rintro ⟨rtg, hroot⟩
    have hwx : w ≠ x := fun he => hx (he ▸ hroot)
    have hupdw : updE m x r w = w := by
      rw [updE_ne m hwx r]
      exact hroot
    induction rtg using Relation.ReflTransGen.head_induction_on with
    | refl => exact reaches_self hupdw
    | @head z1 c step rtg2 ih =>
      by_cases hz1 : z1 = x
      · have hzw : Relation.ReflTransGen (stepRel m) x w := by
          rw [← hz1]
          exact rtg2.head step
        have hw : w = r := reaches_unique hzw hroot hr.1 hr.2
        rw [hz1, hw]
        exact hreach_x
      · have hstep : stepRel (updE m x r) z1 c := by
          refine ⟨?_, ?_⟩
          · rw [updE_ne m hz1 r]
            exact step.1
          · rw [updE_ne m hz1 r]
            exact step.2
        exact ⟨ih.1.head hstep, ih.2⟩

end SerperMCP

namespace SerperMCP

/-- Full correctness of `find_canonical` under the invariant: with fuel at
least the chain budget it returns the root, preserves the invariant (same
measure), the fixed-point set and all reachability facts. -/
theorem findC_spec {E : List String} {m : String → String} {ρ : String → Nat}
    (inv : UFInv E m ρ) :
    ∀ (fuel : Nat) (x : String), measCount E ρ x ≤ fuel →
      Reaches m x (findC m x fuel).1 ∧
      UFInv E (findC m x fuel).2 ρ ∧
      (∀ z, ((findC m x fuel).2 z = z ↔ m z = z)) ∧
      (∀ z w, Reaches (findC m x fuel).2 z w ↔ Reaches m z w) := by
  intro fuel
  induction fuel with
  | zero =>
    intro x hx
    have hmx : m x = x := by
      by_contra hne
      have h1 : 0 < measCount E ρ x := by
        unfold measCount
        rw [List.countP_pos_iff]
        exact ⟨x, (inv.closed x hne).1, by simp⟩
      omega
    rw [findC]
    exact ⟨reaches_self hmx, inv, fun z => Iff.rfl, fun z w => Iff.rfl⟩
  | succ fuel ih =>
    intro x hx
    by_cases hmx : m x = x
    · have heq : findC m x (fuel + 1) = (x, m) := by
        rw [findC, if_pos hmx]
      rw [heq]
      exact ⟨reaches_self hmx, inv, fun z => Iff.rfl, fun z w => Iff.rfl⟩
    · have hmc : measCount E ρ (m x) ≤ fuel := by
        have := measCount_lt inv hmx
        omega
      obtain ⟨hr, hinv2, hfix, hreach⟩ := ih (m x) hmc
      set r1 := (findC m (m x) fuel).1 with hr1def
      set m1 := (findC m (m x) fuel).2 with hm1def
      have heq : findC m x (fuel + 1) = (r1, updE m1 x r1) := by
        rw [findC, if_neg hmx]
      rw [heq]
      show Reaches m x r1 ∧ UFInv E (updE m1 x r1) ρ ∧
        (∀ z, (updE m1 x r1 z = z ↔ m z = z)) ∧
        (∀ z w, Reaches (updE m1 x r1) z w ↔ Reaches m z w)
      have hRmx : Reaches m x r1 := ⟨hr.1.head ⟨rfl, hmx⟩, hr.2⟩
      have hrne : r1 ≠ x := fun he => hmx (he ▸ hr.2)
      have hm1x : m1 x ≠ x := fun he => hmx ((hfix x).1 he)
      have hRm1 : Reaches m1 x r1 := (hreach x _).2 hRmx
      have hupd := reaches_upd_iff hm1x hRm1
      have hr1E : r1 ∈ E := by
        rcases reaches_mem inv hRmx.1 with he | hE
        · exact absurd he hrne
        · exact hE
      refine ⟨hRmx, ?_, ?_, ?_⟩
      · constructor
        · intro z hz
          by_cases hzx : z = x
          · rw [hzx, updE_self m1 x r1]
            exact ⟨(inv.closed x hmx).1, hr1E⟩
          · rw [updE_ne m1 hzx r1] at hz ⊢
            exact hinv2.closed z hz
        · intro z hz
          by_cases hzx : z = x
          · rw [hzx, updE_self m1 x r1] at hz ⊢
            calc ρ x < ρ (m x) := inv.meas x hmx
            _ ≤ ρ r1 := meas_le inv hr.1
          · rw [updE_ne m1 hzx r1] at hz ⊢
            exact hinv2.meas z hz
      · intro z
        by_cases hzx : z = x
        · rw [hzx, updE_self m1 x r1]
          constructor
          · intro hz
            exact absurd hz hrne
          · intro hz
            exact absurd hz hmx
        · rw [updE_ne m1 hzx r1]
          exact hfix z
      · intro z w
        exact (hupd z w).trans (hreach z w)

end SerperMCP

namespace SerperMCP

/-- Chains avoid roots except at their end, so a root update preserves
them. -/
theorem rtg_upd_of_rtg {m : String → String} {l w : String} (hl : m l = l) :
    ∀ {a r : String}, Relation.ReflTransGen (stepRel m) a r →
      Relation.ReflTransGen (stepRel (updE m l w)) a r := by
  intro a r h
  induction h with
  | refl => exact Relation.ReflTransGen.refl
  | tail h1 step ih =>
    rename_i b c
    have hbl : b ≠ l := by
      intro he
      exact step.2 (he ▸ hl)
    exact ih.tail ⟨by rw [updE_ne m hbl w]; exact step.1,
      by rw [updE_ne m hbl w]; exact step.2⟩

/-- Linking one root under another transports every root through the
substitution `l ↦ w`. -/
theorem link_reaches {m : String → String} {l w : String}
    (hl : m l = l) (hw : m w = w) (hlw : l ≠ w) :
    ∀ {a r : String}, Reaches m a r →
      Reaches (updE m l w) a (if r = l then w else r) := by
  intro a r hR
  have hwl : updE m l w w = w := by
    rw [updE_ne m (Ne.symm hlw) w]
    exact hw
  have htr : Relation.ReflTransGen (stepRel (updE m l w)) a r :=
    rtg_upd_of_rtg hl hR.1
  by_cases hrl : r = l
  · rw [if_pos hrl]
    have hstep : stepRel (updE m l w) l w := by
      refine ⟨updE_self m l w, ?_⟩
      rw [updE_self m l w]
      exact Ne.symm hlw
    exact ⟨(hrl ▸ htr).tail hstep, hwl⟩
  · rw [if_neg hrl]
    refine ⟨htr, ?_⟩
    rw [updE_ne m hrl w]
    exact hR.2

/-- Correctness of one `union_entities` call: the invariant is maintained
(with an adjusted measure), all existing root-equalities survive, and the
two arguments share a root afterwards. -/
theorem union_entities_spec {E : List String} {m : String → String}
    (hP : UFInvP E m) {e1 e2 : String} (h1 : e1 ∈ E) (h2 : e2 ∈ E)
    {fuel : Nat} (hf : E.length ≤ fuel) :
    UFInvP E (union_entities fuel m e1 e2) ∧
    (∀ a b, SameRoot m a b → SameRoot (union_entities fuel m e1 e2) a b) ∧
    SameRoot (union_entities fuel m e1 e2) e1 e2 := by
  obtain ⟨ρ, inv⟩ := hP
  have hfu : ∀ x, measCount E ρ x ≤ fuel :=
    fun x => le_trans (measCount_le_len E ρ x) hf
  obtain ⟨hr1, hinv1, hfix1, hreach1⟩ := findC_spec inv fuel e1 (hfu e1)
  set r1 := (findC m e1 fuel).1 with hr1def
  set m1 := (findC m e1 fuel).2 with hm1def
  obtain ⟨hr2, hinv2, hfix2, hreach2⟩ := findC_spec hinv1 fuel e2 (hfu e2)
  set r2 := (findC m1 e2 fuel).1 with hr2def
  set m2 := (findC m1 e2 fuel).2 with hm2def
  have hR1m2 : Reaches m2 e1 r1 := (hreach2 e1 r1).2 ((hreach1 e1 r1).2 hr1)
  have hR2m2 : Reaches m2 e2 r2 := (hreach2 e2 r2).2 hr2
  have hroot1 : m2 r1 = r1 := hR1m2.2
  have hroot2 : m2 r2 = r2 := hR2m2.2
  have hreach12 : ∀ z w, Reaches m2 z w ↔ Reaches m z w :=
    fun z w => (hreach2 z w).trans (hreach1 z w)
  have hr1E : r1 ∈ E := by
    rcases reaches_mem inv ((hreach12 e1 r1).1 hR1m2).1 with he | hE
    · exact he ▸ h1
    · exact hE
  have hr2E : r2 ∈ E := by
    rcases reaches_mem inv ((hreach12 e2 r2).1 hR2m2).1 with he | hE
    · exact he ▸ h2
    · exact hE
  -- the two shapes of the result
  by_cases hne : r1 ≠ r2
  · -- a genuine link: loser root points at winner root
    have main : ∀ (lo wi : String), m2 lo = lo → m2 wi = wi → lo ≠ wi →
        lo ∈ E → wi ∈ E → ({r1, r2} : Set String) = {lo, wi} →
        UFInvP E (updE m2 lo wi) ∧
        (∀ a b, SameRoot m a b → SameRoot (updE m2 lo wi) a b) ∧
        SameRoot (updE m2 lo wi) e1 e2 := by
      intro lo wi hlo hwi hlw hloE hwiE hset
      have hlink : ∀ {a r : String}, Reaches m2 a r →
          Reaches (updE m2 lo wi) a (if r = lo then wi else r) :=
        fun hR => link_reaches hlo hwi hlw hR
      refine ⟨?_, ?_, ?_⟩
      · refine ⟨fun z => if z = wi then max (ρ wi) (ρ lo) + 1 else ρ z, ?_, ?_⟩
        · intro z hz
          by_cases hzl : z = lo
          · rw [hzl, updE_self m2 lo wi]
            exact ⟨hloE, hwiE⟩
          · rw [updE_ne m2 hzl wi] at hz ⊢
            exact hinv2.closed z hz
        · intro z hz
          by_cases hzl : z = lo
          · rw [hzl, updE_self m2 lo wi]
            have hlnw : lo ≠ wi := hlw
            rw [if_neg hlnw, if_pos rfl]
            omega
          · rw [updE_ne m2 hzl wi] at hz ⊢
            have hzw : z ≠ wi := by
              intro he
              exact hz (he ▸ hwi)
            rw [if_neg hzw]
            have hm := hinv2.meas z hz
            by_cases hmzw : m2 z = wi
            · rw [if_pos hmzw]
              rw [hmzw] at hm
              have : ρ wi ≤ max (ρ wi) (ρ lo) := le_max_left _ _
              omega
            · rw [if_neg hmzw]
              exact hm
      · intro a b hab
        obtain ⟨r, hra, hrb⟩ := hab
        exact ⟨if r = lo then wi else r,
          hlink ((hreach12 a r).2 hra), hlink ((hreach12 b r).2 hrb)⟩
      · have ha := hlink hR1m2
        have hb := hlink hR2m2
        have hmem1 : r1 = lo ∨ r1 = wi := by
          have : r1 ∈ ({lo, wi} : Set String) := hset ▸ (by simp)
          simpa using this
        have hmem2 : r2 = lo ∨ r2 = wi := by
          have : r2 ∈ ({lo, wi} : Set String) := by
            rw [← hset]
            simp
          simpa using this
        have hw1 : (if r1 = lo then wi else r1) = wi := by
          rcases hmem1 with h | h
          · rw [if_pos h]
          · rw [if_neg (by rw [h]; exact Ne.symm hlw), h]
        have hw2 : (if r2 = lo then wi else r2) = wi := by
          rcases hmem2 with h | h
          · rw [if_pos h]
          · rw [if_neg (by rw [h]; exact Ne.symm hlw), h]
        rw [hw1] at ha
        rw [hw2] at hb
        exact ⟨wi, ha, hb⟩
    have hresult : union_entities fuel m e1 e2 =
        (if r2.length ≤ r1.length then updE m2 r2 r1 else updE m2 r1 r2) := by
      unfold union_entities
      rw [if_pos hne]
    by_cases hlen : r2.length ≤ r1.length
    · rw [hresult, if_pos hlen]
      exact main r2 r1 hroot2 hroot1 (Ne.symm hne) hr2E hr1E (by
        apply Set.ext
        intro t
        simp [Set.mem_insert_iff]
        tauto)
    · rw [hresult, if_neg hlen]
      exact main r1 r2 hroot1 hroot2 hne hr1E hr2E rfl
  · -- both roots equal: nothing to do
    have heq2 : r1 = r2 := not_ne_iff.1 hne
    have hresult : union_entities fuel m e1 e2 = m2 := by
      unfold union_entities
      rw [if_neg hne]
    rw [hresult]
    refine ⟨⟨ρ, hinv2⟩, ?_, ?_⟩
    · intro a b hab
      obtain ⟨r, hra, hrb⟩ := hab
      exact ⟨r, (hreach12 a r).2 hra, (hreach12 b r).2 hrb⟩
    · exact ⟨r2, heq2 ▸ hR1m2, hR2m2⟩

end SerperMCP

namespace SerperMCP

/-- `a` occurs in `l` strictly before an occurrence of `b` — the order in
which the O(n²) pair loop visits the pair `(a, b)`. -/
def Before (a b : String) (l : List String) : Prop :=
  ∃ l1 l2, l = l1 ++ a :: l2 ∧ b ∈ l2

theorem unionRow_spec {E : List String} {fuel : Nat} (hf : E.length ≤ fuel)
    {e1 : String} (he1 : e1 ∈ E) :
    ∀ (rest : List String) (m : String → String), UFInvP E m → (∀ e ∈ rest, e ∈ E) →
      UFInvP E (unionRow fuel m e1 rest) ∧
      (∀ a b, SameRoot m a b → SameRoot (unionRow fuel m e1 rest) a b) ∧
      (∀ e2 ∈ rest, is_similar e1 e2 = true → SameRoot (unionRow fuel m e1 rest) e1 e2) := by
  intro rest
  induction rest with
  | nil =>
    intro m hP _
    exact ⟨hP, fun a b h => h, fun e2 he2 => absurd he2 (by simp)⟩
  | cons e2 t ih =>
    intro m hP hsub
    have he2E : e2 ∈ E := hsub e2 (by simp)
    have htE : ∀ e ∈ t, e ∈ E := fun e he => hsub e (by simp [he])
    have hrow : unionRow fuel m e1 (e2 :: t) =
        unionRow fuel (if is_similar e1 e2 then union_entities fuel m e1 e2 else m) e1 t := by
      rfl
    by_cases hsim : is_similar e1 e2 = true
    · have hstep := union_entities_spec hP he1 he2E hf
      have hm1 : (if is_similar e1 e2 then union_entities fuel m e1 e2 else m)
          = union_entities fuel m e1 e2 := by
        rw [if_pos hsim]
      obtain ⟨ihP, ihmono, ihconn⟩ := ih (union_entities fuel m e1 e2) hstep.1 htE
      rw [hrow, hm1]
      refine ⟨ihP, ?_, ?_⟩
      · intro a b hab
        exact ihmono a b (hstep.2.1 a b hab)
      · intro e he hsime
        rcases List.mem_cons.1 he with rfl | het
        · exact ihmono e1 e (hstep.2.2)
        · exact ihconn e het hsime
    · have hm1 : (if is_similar e1 e2 then union_entities fuel m e1 e2 else m) = m := by
        rw [if_neg hsim]
      obtain ⟨ihP, ihmono, ihconn⟩ := ih m hP htE
      rw [hrow, hm1]
      refine ⟨ihP, ihmono, ?_⟩
      intro e he hsime
      rcases List.mem_cons.1 he with rfl | het
      · exact absurd hsime hsim
      · exact ihconn e het hsime

theorem unionPairs_spec {E : List String} {fuel : Nat} (hf : E.length ≤ fuel) :
    ∀ (l : List String) (m : String → String), UFInvP E m → (∀ e ∈ l, e ∈ E) →
      UFInvP E (unionPairs fuel m l) ∧
      (∀ a b, SameRoot m a b → SameRoot (unionPairs fuel m l) a b) ∧
      (∀ a b, Before a b l → is_similar a b = true → SameRoot (unionPairs fuel m l) a b) := by
  intro l
  induction l with
  | nil =>
    intro m hP _
    refine ⟨hP, fun a b h => h, ?_⟩
    rintro a b ⟨l1, l2, heq, -⟩ -
    exact absurd heq (by simp)
  | cons e t ih =>
    intro m hP hsub
    have heE : e ∈ E := hsub e (by simp)
    have htE : ∀ x ∈ t, x ∈ E := fun x hx => hsub x (by simp [hx])
    obtain ⟨rP, rmono, rconn⟩ := unionRow_spec hf heE t m hP htE
    obtain ⟨ihP, ihmono, ihconn⟩ := ih (unionRow fuel m e t) rP htE
    have hpairs : unionPairs fuel m (e :: t) = unionPairs fuel (unionRow fuel m e t) t := rfl
    rw [hpairs]
    refine ⟨ihP, ?_, ?_⟩
    · intro a b hab
      exact ihmono a b (rmono a b hab)
    · rintro a b ⟨l1, l2, heq, hb⟩ hsim
      cases l1 with
      | nil =>
        simp only [List.nil_append] at heq
        injection heq with h1 h2
        have hb' : b ∈ t := by rw [h2]; exact hb
        have hsim' : is_similar e b = true := by rw [h1]; exact hsim
        have hc := rconn b hb' hsim'
        rw [← h1]
        exact ihmono e b hc
      | cons c l1' =>
        simp only [List.cons_append] at heq
        injection heq with h1 h2
        exact ihconn a b ⟨l1', l2, h2, hb⟩ hsim

end SerperMCP

namespace SerperMCP

/-- The final pass writes, for each listed entity, exactly the root of that
entity under the mapping at the start of the pass (the interleaved path
compression changes no roots). -/
theorem finalPass_spec {E : List String} {ρ : String → Nat} {fuel : Nat}
    (hf : E.length ≤ fuel) :
    ∀ (l : List String) (m : String → String), UFInv E m ρ →
      List.Forall₂ (fun e p => p.1 = e ∧ Reaches m e p.2) l (finalPass fuel m l).1 := by
  intro l
  induction l with
  | nil => intro m _; exact List.Forall₂.nil
  | cons e t ih =>
    intro m inv
    have hfu : measCount E ρ e ≤ fuel := le_trans (measCount_le_len E ρ e) hf
    obtain ⟨hr, hinv1, -, hreach⟩ := findC_spec inv fuel e hfu
    have heq : (finalPass fuel m (e :: t)).1 =
        (e, (findC m e fuel).1) :: (finalPass fuel (findC m e fuel).2 t).1 := rfl
    rw [heq]
    refine List.Forall₂.cons ⟨rfl, hr⟩ ?_
    have iht := ih (findC m e fuel).2 hinv1
    exact iht.imp (fun {x p} hp => ⟨hp.1, (hreach x p.2).1 hp.2⟩)

theorem lookup_of_forall₂ {m : String → String} :
    ∀ (l : List String) (pairs : List (String × String)),
      List.Forall₂ (fun e p => p.1 = e ∧ Reaches m e p.2) l pairs →
      ∀ {x r : String}, pairs.lookup x = some r → x ∈ l ∧ Reaches m x r := by
  intro l
  induction l with
  | nil =>
    intro pairs h x r hx
    cases h
    exact absurd hx (by simp [List.lookup])
  | cons e t ih =>
    intro pairs h x r hx
    cases h with
    | cons h1 h2 =>
      rename_i p ps
      obtain ⟨p1, p2⟩ := p
      obtain ⟨hp1, hp2⟩ := h1
      by_cases hxe : x = p1
      · have hbeq : (x == p1) = true := beq_iff_eq.2 hxe
        simp only [List.lookup, hbeq] at hx
        injection hx with hx2
        have hxey : x = e := hxe.trans hp1
        constructor
        · rw [hxey]
          exact List.mem_cons.2 (Or.inl rfl)
        · rw [hxey, ← hx2]
          exact hp2
      · have hbeq : (x == p1) = false := beq_eq_false_iff_ne.2 hxe
        simp only [List.lookup, hbeq] at hx
        obtain ⟨hmem, hR⟩ := ih ps h2 hx
        exact ⟨List.mem_cons.2 (Or.inr hmem), hR⟩

theorem lookup_of_reaches {m : String → String} :
    ∀ (l : List String) (pairs : List (String × String)),
      List.Forall₂ (fun e p => p.1 = e ∧ Reaches m e p.2) l pairs →
      ∀ {x r : String}, x ∈ l → Reaches m x r → pairs.lookup x = some r := by
  intro l
  induction l with
  | nil =>
    intro pairs h x r hx _
    exact absurd hx (by simp)
  | cons e t ih =>
    intro pairs h x r hx hr
    cases h with
    | cons h1 h2 =>
      rename_i p ps
      obtain ⟨p1, p2⟩ := p
      obtain ⟨hp1, hp2⟩ := h1
      by_cases hxe : x = p1
      · have hbeq : (x == p1) = true := beq_iff_eq.2 hxe
        simp only [List.lookup, hbeq]
        have hxr : Reaches m e r := by
          rw [← hp1, ← hxe]
          exact hr
        have hpr : p2 = r := reaches_unique hp2.1 hp2.2 hxr.1 hxr.2
        rw [hpr]
      · have hbeq : (x == p1) = false := beq_eq_false_iff_ne.2 hxe
        simp only [List.lookup, hbeq]
        have hxt : x ∈ t := by
          rcases List.mem_cons.1 hx with he | hxt
          · exact absurd (he.trans hp1.symm) hxe
          · exact hxt
        exact ih ps h2 hxt hr

end SerperMCP

namespace SerperMCP

/-- C1: the canonical map returned by the Entity Resolver is idempotent:
whatever value a key maps to is itself a key that maps to itself. -/
theorem canonical_map_idempotent :
    ∀ (rels : List Rel) (x r : String),
      (resolve_entities_with_splink rels).lookup x = some r →
      (resolve_entities_with_splink rels).lookup r = some r := by
  intro rels x r h
  have hinv0 : UFInv (entityList rels) (fun y => y) (fun _ => 0) :=
    ⟨fun y hy => absurd rfl hy, fun y hy => absurd rfl hy⟩
  obtain ⟨hP1, -, -⟩ := unionPairs_spec (le_refl (entityList rels).length)
    (entityList rels) (fun y => y) ⟨_, hinv0⟩ (fun e he => he)
  obtain ⟨ρ1, hinv1⟩ := hP1
  have hforall := finalPass_spec (le_refl (entityList rels).length)
    (entityList rels) _ hinv1
  have hres : resolve_entities_with_splink rels =
      (finalPass (entityList rels).length
        (unionPairs (entityList rels).length (fun x => x) (entityList rels))
        (entityList rels)).1 := rfl
  rw [hres] at h ⊢
  obtain ⟨hxE, hxR⟩ := lookup_of_forall₂ _ _ hforall h
  have hrr : Reaches
      (unionPairs (entityList rels).length (fun x => x) (entityList rels)) r r :=
    reaches_self hxR.2
  have hrE : r ∈ entityList rels := by
    rcases reaches_mem hinv1 hxR.1 with he | hE
    · exact he ▸ hxE
    · exact hE
  exact lookup_of_reaches _ _ hforall hrE hrr

/-- Witness for C1: "abcd" resolves to "abcde", and "abcde" is itself a key
mapping to itself. -/
theorem canonical_map_idempotent_witness :
    (resolve_entities_with_splink
      [⟨"abcd", "Unknown", "abcde", "Unknown", "related to", (8 : Rat) / 10⟩]).lookup
      "abcde" = some "abcde" :=
  canonical_map_idempotent
    [⟨"abcd", "Unknown", "abcde", "Unknown", "related to", (8 : Rat) / 10⟩]
    "abcd" "abcde" (by decide)

/-- C2 counterexample: for the pair ("the x", "x"), one normalized string
is a substring of the other but the length tests fail (the shorter has 1
character), so the source's `elif` chain never evaluates condition (3) —
although the affix-stripped similarity is 1.0 ≥ 0.9 — and the two entities
are NOT unioned: the resolver maps each to itself. -/
theorem similarity_union_counterexample :
    cond_seq "the x" "x" = false ∧
    cond_substr "the x" "x" = true ∧
    cond_substr_len "the x" "x" = false ∧
    cond_clean "the x" "x" = true ∧
    is_similar "the x" "x" = false ∧
    resolve_entities_with_splink
        [⟨"the x", "Unknown", "x", "Unknown", "related to", (8 : Rat) / 10⟩] =
      [("the x", "the x"), ("x", "x")] := by
  exact ⟨by decide, by decide, by decide, by decide, by decide, by decide⟩

/-- C2 (amended): for every pair of distinct entities, taken in the order
the pair loop visits it, the pair is unioned (ends up with one shared
canonical value) whenever: sequence similarity ≥ 0.85; OR one normalized
string is a substring of the other AND the length tests pass; OR neither is
a substring of the other AND the affix-stripped similarity is ≥ 0.9.
Condition (3) is NOT evaluated for substring pairs failing the length
tests — those pairs are not unioned by it. -/
theorem similarity_union_amended :
    ∀ (rels : List Rel) (a b : String),
      Before a b (entityList rels) →
      (cond_seq a b = true ∨
       (cond_substr a b = true ∧ cond_substr_len a b = true) ∨
       (cond_substr a b = false ∧ cond_clean a b = true)) →
      ∃ r, (resolve_entities_with_splink rels).lookup a = some r ∧
           (resolve_entities_with_splink rels).lookup b = some r := by
  intro rels a b hbef hcond
  have hsim : is_similar a b = true := by
    unfold is_similar
    rcases hcond with h | ⟨h1, h2⟩ | ⟨h1, h2⟩
    · rw [if_pos h]
    · by_cases hs : cond_seq a b = true
      · rw [if_pos hs]
      · rw [if_neg hs, if_pos h1]
        exact h2
    · by_cases hs : cond_seq a b = true
      · rw [if_pos hs]
      · rw [if_neg hs, if_neg (by simp [h1])]
        exact h2
  have haE : a ∈ entityList rels := by
    obtain ⟨l1, l2, heq, -⟩ := hbef
    rw [heq]
    simp
  have hbE : b ∈ entityList rels := by
    obtain ⟨l1, l2, heq, hb⟩ := hbef
    rw [heq]
    simp [hb]
  have hinv0 : UFInv (entityList rels) (fun y => y) (fun _ => 0) :=
    ⟨fun y hy => absurd rfl hy, fun y hy => absurd rfl hy⟩
  obtain ⟨hP1, -, hconn⟩ := unionPairs_spec (le_refl (entityList rels).length)
    (entityList rels) (fun y => y) ⟨_, hinv0⟩ (fun e he => he)
  obtain ⟨ρ1, hinv1⟩ := hP1
  have hforall := finalPass_spec (le_refl (entityList rels).length)
    (entityList rels) _ hinv1
  obtain ⟨r, hra, hrb⟩ := hconn a b hbef hsim
  exact ⟨r, lookup_of_reaches _ _ hforall haE hra,
    lookup_of_reaches _ _ hforall hbE hrb⟩

/-- Witness for the amended C2 theorem: "abcd" and "abcde" have sequence
similarity 8/9 ≥ 0.85 and end up with one shared canonical value. -/
theorem similarity_union_amended_witness :
    ∃ r, (resolve_entities_with_splink
        [⟨"abcd", "Unknown", "abcde", "Unknown", "related to", (8 : Rat) / 10⟩]).lookup
        "abcd" = some r ∧
      (resolve_entities_with_splink
        [⟨"abcd", "Unknown", "abcde", "Unknown", "related to", (8 : Rat) / 10⟩]).lookup
        "abcde" = some r :=
  similarity_union_amended
    [⟨"abcd", "Unknown", "abcde", "Unknown", "related to", (8 : Rat) / 10⟩]
    "abcd" "abcde" ⟨[], ["abcde"], by decide, by decide⟩ (Or.inl (by decide))

end SerperMCP
